import Mathlib

/-!
Formal model of the boosty-orbtc-indexer core algorithms.

Each definition is a shallow embedding of a function from the Rust sources
(`src/orbtc/src/...`); machine integers (`u64`, `u128`, `i32`, `i64`) are
modelled as `Nat` (all the modelled code paths only add, subtract with a
proven lower bound, divide and compare; none of the claims concern wraparound
behaviour).  Fallible code is modelled with `Option`/`Sum`/`Except`.
-/

namespace Orbtc

/-! ## UTXO collector (`src/orbtc/src/service/utxo_collector/algo.rs`)

The Rust algorithm is generic over the trait `Utxo` which exposes only
`get_amount`.  We model a candidate as an `amount` together with an opaque
`payload`, so that two distinct candidates with equal amounts remain
distinguishable values (as the distinct elements of the input slice do). -/

structure Utxo where
  payload : Nat
  amount : Nat
  deriving DecidableEq, Repr, Inhabited

/-- `KnapsackError::NotEnoughBalance { available, target }`. -/
structure NotEnoughBalance where
  available : Nat
  target : Nat
  deriving DecidableEq, Repr

/-- The loop of Rust `slice::binary_search_by`, specialised to the comparator
of `binary_search_next_ge_than`, which is
`|val| if val.get_amount() > target { Less } else { Greater }`.
That comparator has no `Equal` outcome, so the `Ok(index)` arm of the Rust
`match` is unreachable and `binary_search_by` always returns `Err(left)` with
`left` the final value of the left bound; this function computes that bound
(`Less` moves `left` to `mid + 1`, `Greater` moves `right` to `mid`). -/
def binarySearchGo (arr : List Utxo) (target : Nat) (left right : Nat) : Nat :=
  if h : left < right then
    let mid := left + (right - left) / 2
    if (arr.getD mid default).amount > target then binarySearchGo arr target (mid + 1) right
    else binarySearchGo arr target left mid
  else left
termination_by right - left
decreasing_by
  · have hd : (right - left) / 2 < right - left := Nat.div_lt_self (by omega) (by omega)
    omega
  · have hd : (right - left) / 2 ≤ right - left := Nat.div_le_self _ _
    omega

/-- `binary_search_next_ge_than` (algo.rs:75-102): the index of the
smallest-indexed element whose amount is `≥ target`, located through the
partition point of the descending array. -/
def binary_search_next_ge_than (arr : List Utxo) (target : Nat) : Option Nat :=
  let index := binarySearchGo arr target 0 arr.length
  if index < arr.length ∧ target ≤ (arr.getD index default).amount then some index
  else if 0 < index ∧ target ≤ (arr.getD (index - 1) default).amount then some (index - 1)
  else none

/-- The `while collected < target` loop of `min_utxos_to_reach_target`
(algo.rs:34-68).  `idx` is the start of the considered sub-slice `subset`;
note that the `Some(found)` arm assigns the subset-relative index `found` to
`idx` without offsetting it, exactly as the source does. -/
def collectLoop (utxos : List Utxo) (target collected idx : Nat) (result : List Utxo) :
    NotEnoughBalance ⊕ List Utxo :=
  if hLoop : collected < target then
    match hSub : utxos.drop idx with
    | [] => Sum.inl ⟨collected, target⟩
    | u :: rest =>
      if hGe : target - collected ≤ u.amount then
        match hBs : binary_search_next_ge_than (u :: rest) (target - collected) with
        | some found =>
          collectLoop utxos target (collected + ((u :: rest).getD found default).amount) found
            (result ++ [(u :: rest).getD found default])
        | none =>
          collectLoop utxos target (collected + u.amount) (idx + 1) (result ++ [u])
      else
        collectLoop utxos target (collected + u.amount) (idx + 1) (result ++ [u])
  else Sum.inr result
termination_by (target - collected, utxos.length - idx)
decreasing_by
  · apply Prod.Lex.left
    have ha : target - collected ≤ ((u :: rest).getD found default).amount := by
      simp only [binary_search_next_ge_than] at hBs
      split at hBs
      · rename_i hc
        cases hBs
        exact hc.2
      · split at hBs
        · rename_i hc
          cases hBs
          exact hc.2
        · cases hBs
    omega
  · apply Prod.Lex.left
    omega
  · rcases Nat.eq_zero_or_pos u.amount with hz | hp
    · have hcol : collected + u.amount = collected := by omega
      rw [hcol]
      apply Prod.Lex.right
      have hlen := congrArg List.length hSub
      simp only [List.length_drop, List.length_cons] at hlen
      omega
    · apply Prod.Lex.left
      omega

/-- `min_utxos_to_reach_target` (algo.rs:17-71).  The `debug_assert_ne!` on a
zero target is compiled out in release builds and is not part of the
function's value semantics. -/
def min_utxos_to_reach_target (utxos : List Utxo) (target : Nat) :
    NotEnoughBalance ⊕ List Utxo :=
  if utxos.isEmpty then Sum.inl ⟨0, target⟩
  else collectLoop utxos target 0 0 []

/-- Total amount carried by a list of UTXOs. -/
def amountsSum (l : List Utxo) : Nat := (l.map Utxo.amount).sum

/-- Sum of the amounts of the first `k` candidates. -/
def takeSum (utxos : List Utxo) (k : Nat) : Nat := amountsSum (utxos.take k)

/-- The amount of the `i`-th candidate (0 out of range). -/
def amt (utxos : List Utxo) (i : Nat) : Nat := (utxos.getD i default).amount

/-- The invariant the collector requires of its input
(`INVARIANT: utxos MUST be sorted in descending order by get_amount()`). -/
def SortedDesc (utxos : List Utxo) : Prop :=
  List.Pairwise (fun a b => b.amount ≤ a.amount) utxos

instance (utxos : List Utxo) : Decidable (SortedDesc utxos) := by
  unfold SortedDesc
  infer_instance

/-! ## UTXO collector service (`src/orbtc/src/service/utxo_collector/mod.rs`)

`collect_btc_utxo` / `collect_rune_utxo` consult the store; the store answers
(balance, the optional single UTXO `≥ target`, and the candidate page) are
passed in as values, so the functions below are the pure decision logic of
the two handlers. -/

inductive CollectorError where
  | notEnoughBalance (available target : Nat)
  | needMoreUtxos (totalUtxo maxN : Nat) (collected target : Nat)
  | badInput (msg : String)
  deriving DecidableEq, Repr

/-- `UtxoCollectorService::collect_btc_utxo` (mod.rs:83-142), with the three
store queries (`get_balance`, `get_address_btc_utxo_ge_amount`,
`select_utxo_with_pagination`) supplied as arguments. -/
def collect_btc_utxo (balance : Nat) (singleGe : Option Utxo) (candidates : List Utxo)
    (target : Nat) (maxUtxos : Nat) : Except CollectorError (List Utxo) :=
  if target = 0 then Except.error (CollectorError.badInput "Target amount is zero")
  else
    let _maxUtxos := max 1 (min maxUtxos 1000)
    if balance < target then Except.error (CollectorError.notEnoughBalance balance target)
    else
      match singleGe with
      | some u => Except.ok [u]
      | none =>
        match min_utxos_to_reach_target candidates target with
        | Sum.inl e => Except.error (CollectorError.notEnoughBalance e.available e.target)
        | Sum.inr out => Except.ok out

/-- `UtxoCollectorService::collect_rune_utxo` (mod.rs:144-208); identical
decision structure over the rune-balance queries. -/
def collect_rune_utxo (balance : Nat) (singleGe : Option Utxo) (candidates : List Utxo)
    (target : Nat) (maxUtxos : Nat) : Except CollectorError (List Utxo) :=
  if target = 0 then Except.error (CollectorError.badInput "Target amount is zero")
  else
    let _maxUtxos := max 1 (min maxUtxos 1000)
    if balance < target then Except.error (CollectorError.notEnoughBalance balance target)
    else
      match singleGe with
      | some u => Except.ok [u]
      | none =>
        match min_utxos_to_reach_target candidates target with
        | Sum.inl e => Except.error (CollectorError.notEnoughBalance e.available e.target)
        | Sum.inr out => Except.ok out

/-! ## Mint checker (`src/orbtc/src/indexer/runes_indexer.rs:629-744`) -/

/-- `ordinals::Terms`: `height` and `offset` are pairs of optional block
numbers (absolute window and window relative to the etching block). -/
structure TermsT where
  amount : Option Nat
  cap : Option Nat
  height : Option Nat × Option Nat
  offset : Option Nat × Option Nat
  deriving DecidableEq, Repr

/-- `MintError` (runes_indexer.rs:727-733); `endAt`/`startAt` model the Rust
constructors `End`/`Start`. -/
inductive MintError where
  | cap (cap : Nat)
  | endAt (endBlock : Nat)
  | startAt (startBlock : Nat)
  | unmintable
  deriving DecidableEq, Repr

/-- `MintChecker` (runes_indexer.rs:629-634).  `block` is the etching
block of the rune, `mints` the number of mints so far. -/
structure MintChecker where
  block : Nat
  mints : Nat
  premine : Nat
  terms : Option TermsT
  deriving DecidableEq, Repr

/-- `MintChecker::start` (runes_indexer.rs:692-707).  The Rust body is
`relative.zip(absolute).map(max).or(relative).or(absolute)` with
`relative = offset.0.map(|o| block.saturating_add(o))`; the `match` below
enumerates exactly those cases (`Nat` addition needs no saturation). -/
def MintChecker.start (c : MintChecker) : Option Nat :=
  match c.terms with
  | none => none
  | some terms =>
    let relative := terms.offset.1.map (fun o => c.block + o)
    let absolute := terms.height.1
    match relative, absolute with
    | some r, some a => some (max r a)
    | some r, none => some r
    | none, a => a

/-- `MintChecker::end` (runes_indexer.rs:709-724), named `endH` because `end`
is a Lean keyword. -/
def MintChecker.endH (c : MintChecker) : Option Nat :=
  match c.terms with
  | none => none
  | some terms =>
    let relative := terms.offset.2.map (fun o => c.block + o)
    let absolute := terms.height.2
    match relative, absolute with
    | some r, some a => some (min r a)
    | some r, none => some r
    | none, a => a

/-- `MintChecker::mintable` (runes_indexer.rs:646-670): start check, then end
check, then cap check, then the per-mint amount. -/
def MintChecker.mintable (c : MintChecker) (height : Nat) : Except MintError Nat :=
  match c.terms with
  | none => Except.error MintError.unmintable
  | some terms =>
    let capCheck : Except MintError Nat :=
      let cap := terms.cap.getD 0
      if cap ≤ c.mints then Except.error (MintError.cap cap)
      else Except.ok (terms.amount.getD 0)
    let endCheck : Except MintError Nat :=
      match c.endH with
      | some e => if e ≤ height then Except.error (MintError.endAt e) else capCheck
      | none => capCheck
    match c.start with
    | some s => if height < s then Except.error (MintError.startAt s) else endCheck
    | none => endCheck

/-! ## Rune aggregate counters (`src/orbtc/src/db/schema.rs:98-114`)

Only the fields touched by `add_mint`/`burn` plus the immutable supply
fields are carried; amounts (`Amount` = `u128`) are `Nat`. -/

structure RuneRow where
  name : String
  maxSupply : Nat
  premine : Nat
  burned : Nat
  minted : Nat
  inCirculation : Nat
  mints : Nat
  deriving DecidableEq, Repr

/-- `Rune::add_mint` (schema.rs:99-104). -/
def RuneRow.add_mint (r : RuneRow) (amount : Nat) : RuneRow :=
  { r with
    mints := r.mints + 1
    inCirculation := r.inCirculation + amount
    minted := r.minted + amount }

/-- `Rune::burn` (schema.rs:106-114): a burn larger than `in_circulation`
is rejected (returns the record unchanged). -/
def RuneRow.burn (r : RuneRow) (amount : Nat) : RuneRow :=
  if r.inCirculation < amount then r
  else
    { r with
      burned := r.burned + amount
      inCirculation := r.inCirculation - amount }

/-! ## Reservation cache (`src/orbtc/src/cache/mod.rs`)

The external KV store is a partial map from formatted keys to stored ids.
`lock_utxo` takes the drawn random `u32` as an argument (the only
non-determinism of the function). -/

/-- `NO_ID` (cache/mod.rs:9). -/
def NO_ID : String := "p.j.fry"

/-- The key `format!("orbtc:utxo_locks:{tx_hash}:{vout}")` (cache/mod.rs:39,58). -/
def lockKey (txHash : String) (vout : Nat) : String :=
  "orbtc:utxo_locks:" ++ txHash ++ ":" ++ toString vout

/-- A snapshot of the KV store. -/
def KvStore := String → Option String

/-- `Repo::lock_utxo` (cache/mod.rs:32-49): an empty `request_id` is replaced
with the synthetic `p.j.fry-<random u32>` value; `SETEX` writes the key. -/
def lock_utxo (store : KvStore) (txHash : String) (vout : Nat) (requestId : String)
    (rand : Nat) : KvStore :=
  let key := lockKey txHash vout
  let id := if requestId.isEmpty then NO_ID ++ "-" ++ toString rand else requestId
  fun k => if k = key then some id else store k

/-- `Repo::check_is_locked` (cache/mod.rs:51-73). -/
def check_is_locked (store : KvStore) (txHash : String) (vout : Nat)
    (requestId : Option String) : Bool :=
  match store (lockKey txHash vout) with
  | some val => if val = NO_ID then true else !(some val == requestId)
  | none => false

/-! ## Runes indexer, per-transaction allocation
(`RunesIndexer::_index_transaction`, `src/orbtc/src/indexer/runes_indexer.rs:92-342`)

The runestone decoder (`ordinals` crate) hands the indexer either a
`Runestone` or a `Cenotaph`; only the fields the allocation logic reads are
modelled.  Rune balances are maps `RuneId → u128`; a `HashMap` entry that is
absent is modelled as the value `0` (an existing entry holding `0` and an
absent entry are interchangeable for every allocation step: all the amounts
computed from a zero balance are zero and `allocate` ignores zero amounts). -/

/-- `ordinals::RuneId` as `(block, tx)`; `RuneId::default()` is `(0, 0)`. -/
abbrev RuneIdT := Nat × Nat

/-- A per-rune balance map. -/
abbrev BalMap := RuneIdT → Nat

/-- `Edict { id, amount, output }`. -/
structure EdictT where
  id : RuneIdT
  amount : Nat
  output : Nat
  deriving DecidableEq, Repr

/-- The fields of `ordinals::Etching` the indexer reads when computing
balances: whether a rune name is given explicitly, and the premine. -/
structure EtchingT where
  rune : Option Unit
  premine : Option Nat
  deriving DecidableEq, Repr

/-- The fields of `ordinals::Runestone` read by `_index_transaction`. -/
structure RunestoneT where
  edicts : List EdictT
  etching : Option EtchingT
  mint : Option RuneIdT
  pointer : Option Nat
  deriving DecidableEq, Repr

/-- The fields of `ordinals::Cenotaph` read by `_index_transaction`. -/
structure CenotaphT where
  etching : Option Unit
  mint : Option RuneIdT
  deriving DecidableEq, Repr

/-- `ordinals::Artifact`. -/
inductive ArtifactT where
  | runestone (r : RunestoneT)
  | cenotaph (c : CenotaphT)
  deriving DecidableEq, Repr

/-- `Artifact::mint`. -/
def ArtifactT.mint : ArtifactT → Option RuneIdT
  | ArtifactT.runestone r => r.mint
  | ArtifactT.cenotaph c => c.mint

/-- The context one `_index_transaction` call runs in.  `outputs` records per
vout whether `script_pubkey.is_op_return()`; `unalloc0` is the map produced
by `RunesIndexer::unallocated` (runes_indexer.rs:344-371), i.e. the per-rune
sums of the `RuneOutput` rows at the transaction's inputs; `mintOf id` is the
outcome of `RunesIndexer::mint` (the per-mint amount when the mint passes the
`MintChecker`); `etchOk` is the outcome of the name/commitment validation of
`RunesIndexer::etched` for an explicitly named etching; `newRuneId` is the id
`(block, tx_n)` a successful etching receives. -/
structure TxCtx where
  outputs : List Bool
  artifact : Option ArtifactT
  newRuneId : RuneIdT
  unalloc0 : BalMap
  mintOf : RuneIdT → Option Nat
  etchOk : Bool

/-- Point increment of a balance map (`*map.entry(id).or_default() += a`). -/
def bump (m : BalMap) (id : RuneIdT) (a : Nat) : BalMap :=
  fun k => if k = id then m k + a else m k

/-- Replace the `i`-th map of the allocation vector. -/
def modifyNth (l : List BalMap) (i : Nat) (f : BalMap → BalMap) : List BalMap :=
  match l, i with
  | [], _ => []
  | x :: xs, 0 => f x :: xs
  | x :: xs, n + 1 => x :: modifyNth xs n f

/-- The mutable state of the allocation loop: the `unallocated` map and the
per-vout `allocated` vector (runes_indexer.rs:95-97). -/
structure AllocState where
  unalloc : BalMap
  alloc : List BalMap

/-- The closure `allocate` (runes_indexer.rs:144-149): move `amount` of rune
`id` from the unallocated balance to output `output` (a no-op when the amount
is zero). -/
def allocate (st : AllocState) (id : RuneIdT) (amount : Nat) (output : Nat) : AllocState :=
  if 0 < amount then
    { unalloc := fun k => if k = id then st.unalloc k - amount else st.unalloc k
      alloc := modifyNth st.alloc output (fun m => bump m id amount) }
  else st

/-- Total of rune `R` across the per-vout allocation vector. -/
def sumAlloc (st : AllocState) (R : RuneIdT) : Nat := (st.alloc.map (fun m => m R)).sum

/-- `unallocated` after the mint step (runes_indexer.rs:100-109): a
successful mint of `id` adds the per-mint amount to `unallocated[id]`. -/
def unallocAfterMint (tx : TxCtx) : BalMap :=
  match tx.artifact with
  | none => tx.unalloc0
  | some art =>
    match art.mint with
    | none => tx.unalloc0
    | some id =>
      match tx.mintOf id with
      | none => tx.unalloc0
      | some amount => bump tx.unalloc0 id amount

/-- The outcome of `RunesIndexer::etched` (runes_indexer.rs:373-524) as seen
by the allocation logic: `some id` iff a rune entry is created for this
transaction.  A `Runestone` without an etching field etches nothing; an
explicitly named etching is subject to validation (`etchOk`); an unnamed
etching takes the reserved name and always succeeds; a `Cenotaph` etches only
when it names a rune that passes validation. -/
def etchedId (tx : TxCtx) : Option RuneIdT :=
  match tx.artifact with
  | some (ArtifactT.runestone r) =>
    match r.etching with
    | none => none
    | some e =>
      match e.rune with
      | some _ => if tx.etchOk then some tx.newRuneId else none
      | none => some tx.newRuneId
  | some (ArtifactT.cenotaph c) =>
    match c.etching with
    | some _ => if tx.etchOk then some tx.newRuneId else none
    | none => none
  | none => none

/-- `unallocated` after the premine step (runes_indexer.rs:112-116): for a
`Runestone` whose etching succeeded, `premine.unwrap_or_default()` is added
at the new id (`etchedId tx = some _` forces `r.etching = some _`, so the
`unwrap()` of the source cannot panic). -/
def unallocAfterPremine (tx : TxCtx) : BalMap :=
  match tx.artifact with
  | some (ArtifactT.runestone r) =>
    match etchedId tx with
    | some id => bump (unallocAfterMint tx) id ((r.etching.map (fun e => e.premine.getD 0)).getD 0)
    | none => unallocAfterMint tx
  | _ => unallocAfterMint tx

/-- The non-`OP_RETURN` output indices
(`tx.output.iter().enumerate().filter_map(...)`, runes_indexer.rs:153-161). -/
def destinationsOf (outputs : List Bool) : List Nat :=
  (outputs.enum.filter (fun p => !p.2)).map Prod.fst

/-- One edict (runes_indexer.rs:118-194).  `nOut` is `tx.output.len()`; the
`output == nOut` sentinel distributes over all non-`OP_RETURN` outputs. -/
def processEdict (nOut : Nat) (outputs : List Bool) (etched : Option RuneIdT)
    (st : AllocState) (e : EdictT) : AllocState :=
  let idOpt : Option RuneIdT := if e.id = ((0, 0) : RuneIdT) then etched else some e.id
  match idOpt with
  | none => st
  | some id =>
    if e.output = nOut then
      let destinations := destinationsOf outputs
      if destinations.isEmpty then st
      else if e.amount = 0 then
        let balance := st.unalloc id
        let per := balance / destinations.length
        let rem := balance % destinations.length
        destinations.enum.foldl
          (fun st p => allocate st id (if p.1 < rem then per + 1 else per) p.2) st
      else
        destinations.foldl (fun st d => allocate st id (min e.amount (st.unalloc id)) d) st
    else
      let amount := if e.amount = 0 then st.unalloc id else min e.amount (st.unalloc id)
      allocate st id amount e.output

/-- The allocation state after the whole edict loop; edicts only run for a
`Runestone` (runes_indexer.rs:112,118). -/
def afterEdicts (tx : TxCtx) : AllocState :=
  let st0 : AllocState :=
    { unalloc := unallocAfterPremine tx
      alloc := List.replicate tx.outputs.length (fun _ => 0) }
  match tx.artifact with
  | some (ArtifactT.runestone r) =>
    r.edicts.foldl (processEdict tx.outputs.length tx.outputs (etchedId tx)) st0
  | _ => st0

/-- The first non-`OP_RETURN` output (runes_indexer.rs:225-233). -/
def firstNonOpReturn (outputs : List Bool) : Option Nat :=
  (outputs.enum.find? (fun p => !p.2)).map Prod.fst

/-- Step 6, the disposition of the remaining unallocated balances
(runes_indexer.rs:202-247): for a `Cenotaph` everything burns; otherwise
everything goes to the `pointer` output, else to the first non-`OP_RETURN`
output, else burns.  Returns the final allocation vector and the `burned`
map as of line 247 (the guard `balance > 0` of the source is dropped:
adding zero is the identity). -/
def disposition (tx : TxCtx) : AllocState × BalMap :=
  let st := afterEdicts tx
  match tx.artifact with
  | some (ArtifactT.cenotaph _) => ({ st with unalloc := fun _ => 0 }, st.unalloc)
  | art =>
    let pointer : Option Nat :=
      match art with
      | some (ArtifactT.runestone r) => r.pointer
      | _ => none
    match pointer.or (firstNonOpReturn tx.outputs) with
    | some vout =>
      ({ unalloc := fun _ => 0
         alloc := modifyNth st.alloc vout (fun m => fun k => m k + st.unalloc k) },
        fun _ => 0)
    | none => ({ st with unalloc := fun _ => 0 }, st.unalloc)

/-- Total of rune `R` staged as `RuneOutput` rows by the persistence loop
(runes_indexer.rs:249-330): the allocations at non-`OP_RETURN` outputs. -/
def stagedRowsSum (tx : TxCtx) (R : RuneIdT) : Nat :=
  (((disposition tx).1.alloc.enum.filter (fun p => !(tx.outputs.getD p.1 true))).map
    (fun p => p.2 R)).sum

/-- Final burned total of rune `R` for the transaction: the burns of step 6
plus every allocation falling on an `OP_RETURN` output
(runes_indexer.rs:256-262,332-339). -/
def burnedFinal (tx : TxCtx) (R : RuneIdT) : Nat :=
  (disposition tx).2 R +
    (((disposition tx).1.alloc.enum.filter (fun p => tx.outputs.getD p.1 true)).map
      (fun p => p.2 R)).sum

/-- The amount a successful mint contributes to rune `R` in this transaction
(the increment of runes_indexer.rs:107). -/
def mintAdd (tx : TxCtx) (R : RuneIdT) : Nat :=
  match tx.artifact with
  | none => 0
  | some art =>
    match art.mint with
    | none => 0
    | some id =>
      match tx.mintOf id with
      | none => 0
      | some amount => if R = id then amount else 0

/-- The premine contributed to rune `R` when `R` is etched in this
transaction (the increment of runes_indexer.rs:114-115). -/
def premineAdd (tx : TxCtx) (R : RuneIdT) : Nat :=
  match tx.artifact with
  | some (ArtifactT.runestone r) =>
    match etchedId tx with
    | some id =>
      if R = id then (r.etching.map (fun e => e.premine.getD 0)).getD 0 else 0
    | none => 0
  | _ => 0

/-- Well-formedness the `ordinals` decoder guarantees and the source asserts:
every edict output is `≤ tx.output.len()` (runes_indexer.rs:128) and the
pointer, when present, is a valid output index (the `assert!` at
runes_indexer.rs:224). -/
def TxWellFormed (tx : TxCtx) : Prop :=
  match tx.artifact with
  | some (ArtifactT.runestone r) =>
    (∀ e ∈ r.edicts, e.output ≤ tx.outputs.length) ∧
      (match r.pointer with
       | some p => p < tx.outputs.length
       | none => True)
  | _ => True

/-! ## Etching commitment validation
(`RunesIndexer::validate_commitment`, runes_indexer.rs:546-626)

Byte strings are lists of byte values; transaction ids are abstract `Nat`s.
The two node RPCs the function performs (`get_raw_transaction_info`,
`get_block_header_info`) are supplied as partial maps; `none` models an RPC
error, on which the source returns `None` for the whole validation. -/

/-- `Runestone::COMMIT_CONFIRMATIONS`. -/
def COMMIT_CONFIRMATIONS : Nat := 6

/-- One tapscript instruction as `validate_commitment` classifies it:
a successful push, a successful non-push instruction, or a decoding error
(which makes the source `break` out of the instruction loop). -/
inductive InstrT where
  | push (bytes : List Nat)
  | nonPush
  | errInstr
  deriving DecidableEq, Repr

/-- One transaction input: the tapscript extracted from its witness (if any)
and the previous output it spends. -/
structure InputT where
  tapscript : Option (List InstrT)
  prevTxid : Nat
  prevVout : Nat
  deriving DecidableEq, Repr

/-- `get_raw_transaction_info` answer: per-vout
`script_pub_key.script().unwrap_or_default().is_p2tr()` and the hash of the
containing block (the source `unwrap`s this field, so it is not optional
here). -/
structure RpcTxInfo where
  vouts : List Bool
  blockhash : Nat
  deriving DecidableEq, Repr

/-- The node RPC environment. -/
structure RpcEnv where
  getRawTx : Nat → Option RpcTxInfo
  headerHeight : Nat → Option Nat

/-- Outcome of scanning one input's tapscript: a valid commitment was found,
an RPC error aborts the whole validation, or scanning moves to the next
input. -/
inductive ScanOutcome where
  | found (txid : Nat)
  | abort
  | keep
  deriving DecidableEq, Repr

/-- The `for instruction in tapscript.instructions()` loop
(runes_indexer.rs:564-622) for a single input.  A decoding error breaks the
loop; a non-push or a push of other bytes continues; a matching push triggers
the P2TR check (an out-of-range vout is treated as not-P2TR) and the
confirmation check `tx_block - commit_height + 1 ≥ COMMIT_CONFIRMATIONS`. -/
def scanInstrs (env : RpcEnv) (commitment : List Nat) (txBlock : Nat) (inp : InputT) :
    List InstrT → ScanOutcome
  | [] => ScanOutcome.keep
  | instr :: rest =>
    match instr with
    | InstrT.errInstr => ScanOutcome.keep
    | InstrT.nonPush => scanInstrs env commitment txBlock inp rest
    | InstrT.push bytes =>
      if bytes ≠ commitment then scanInstrs env commitment txBlock inp rest
      else
        match env.getRawTx inp.prevTxid with
        | none => ScanOutcome.abort
        | some info =>
          let taproot := info.vouts.getD inp.prevVout false
          if !taproot then scanInstrs env commitment txBlock inp rest
          else
            match env.headerHeight info.blockhash with
            | none => ScanOutcome.abort
            | some commitHeight =>
              let confirmations := txBlock - commitHeight + 1
              if COMMIT_CONFIRMATIONS ≤ confirmations then ScanOutcome.found inp.prevTxid
              else scanInstrs env commitment txBlock inp rest

/-- `validate_commitment` (runes_indexer.rs:546-626): the `for input` loop.
Inputs without a tapscript are skipped. -/
def validate_commitment (env : RpcEnv) (commitment : List Nat) (txBlock : Nat) :
    List InputT → Option Nat
  | [] => none
  | inp :: rest =>
    match inp.tapscript with
    | none => validate_commitment env commitment txBlock rest
    | some script =>
      match scanInstrs env commitment txBlock inp script with
      | ScanOutcome.found t => some t
      | ScanOutcome.abort => none
      | ScanOutcome.keep => validate_commitment env commitment txBlock rest

/-- The validation sequence of `RunesIndexer::etched` for an etching that
names a rune explicitly (runes_indexer.rs:389-419): minimum/reserved name
check, name-uniqueness check, then the commitment check.  Returns the number
of `invalid_etches` increments together with `some commitment_tx` when the
etching is accepted (`none` = the etching is skipped, no rune entry is
created). -/
def etchedNamedGate (minimumOk nameFresh : Bool) (commit : Option Nat) : Nat × Option Nat :=
  if !minimumOk then (1, none)
  else if !nameFresh then (1, none)
  else
    match commit with
    | none => (1, none)
    | some t => (0, some t)

/-! ## Indexing runtime (`src/orbtc/src/indexer/rt.rs`)

Block hashes are abstract `Nat`s.  The store (`src/orbtc/src/indexer/db.rs`)
is a record of table contents; the rows of the four data tables are reduced
to the one column the runtime's rewind logic reads (`block`) plus an opaque
payload. -/

/-- A `blocks` row (`schema::Block`): per-indexer block record. -/
structure BlockRec where
  height : Nat
  hash : Nat
  blocktime : Nat
  indexer : String
  deriving DecidableEq, Repr

/-- A row of `outputs` / `inputs` / `runes_outputs` / `runes`: the block it
belongs to plus an opaque payload. -/
structure TableRow where
  block : Nat
  payload : Nat
  deriving DecidableEq, Repr

/-- The store tables the indexing runtime touches. -/
structure DbState where
  blocks : List BlockRec
  outputs : List TableRow
  inputs : List TableRow
  runesOutputs : List TableRow
  runes : List TableRow
  lastIndexed : String → Option Nat

/-- `DB::get_block` (indexer/db.rs:145-153): first `blocks` row with the
given hash for the given indexer. -/
def DbState.get_block (db : DbState) (hash : Nat) (indexerName : String) : Option BlockRec :=
  db.blocks.find? (fun b => b.hash == hash && b.indexer == indexerName)

/-- `DB::drop_blocks` (indexer/db.rs:155-188): delete `blocks` rows with
`height ≥ h` for this indexer, and all `inputs`, `outputs`, `runes_outputs`
and `runes` rows with `block ≥ h`. -/
def DbState.drop_blocks (db : DbState) (h : Nat) (indexerName : String) : DbState :=
  { db with
    blocks := db.blocks.filter (fun b => !(h ≤ b.height && b.indexer == indexerName))
    inputs := db.inputs.filter (fun r => !(h ≤ r.block : Bool))
    outputs := db.outputs.filter (fun r => !(h ≤ r.block : Bool))
    runesOutputs := db.runesOutputs.filter (fun r => !(h ≤ r.block : Bool))
    runes := db.runes.filter (fun r => !(h ≤ r.block : Bool)) }

/-- `DB::drop_runes_blocks` (indexer/db.rs:190-213): like `drop_blocks` but
touching only `blocks`, `runes_outputs` and `runes`. -/
def DbState.drop_runes_blocks (db : DbState) (h : Nat) (indexerName : String) : DbState :=
  { db with
    blocks := db.blocks.filter (fun b => !(h ≤ b.height && b.indexer == indexerName))
    runesOutputs := db.runesOutputs.filter (fun r => !(h ≤ r.block : Bool))
    runes := db.runes.filter (fun r => !(h ≤ r.block : Bool)) }

/-- `DB::update_last_block` (indexer/db.rs:111-123): upsert of the
per-indexer checkpoint. -/
def DbState.update_last_block (db : DbState) (name : String) (h : Nat) : DbState :=
  { db with lastIndexed := fun n => if n = name then some h else db.lastIndexed n }

/-- `DB::insert_block` (indexer/db.rs:125-143). -/
def DbState.insert_block (db : DbState) (height hash time : Nat) (indexerName : String) :
    DbState :=
  { db with blocks := db.blocks ++ [⟨height, hash, time, indexerName⟩] }

/-- `Rt::find_fork_root` (rt.rs:250-265): walk `prev_hash` links through
`get_block_header_info` until a `blocks` row of this indexer is found.
`header` maps a block hash to its parent hash (`none` = no parent or RPC
error, on which the source bails); `fuel` bounds the walk (the source loops
unboundedly; every claim is conditioned on the walk finding a root). -/
def find_fork_root (db : DbState) (indexerName : String) (header : Nat → Option Nat) :
    Nat → Nat → Option BlockRec
  | _, 0 => none
  | hash, fuel + 1 =>
    match db.get_block hash indexerName with
    | some b => some b
    | none =>
      match header hash with
      | none => none
      | some prev => find_fork_root db indexerName header prev fuel

/-- The runtime state of `Rt` that the block loop reads and writes. -/
structure RtState where
  db : DbState
  lastBlock : Option Nat
  name : String
  skipInputs : Bool
  dryRun : Bool

/-- `Rt::index_block` (rt.rs:293-381).  The fetched block is given as
`(blockHash, prevHash, txCount, blockTime)`; the per-indexer staging commit
(`indexer.commit_state`) only touches the indexer's own staging tables, which
are outside this state, so its outcome is the boolean `commitOk`.  The result
is `some (state', height, hash, txCount)` or `none` for a bailed-out
error. -/
def index_block (st : RtState) (height : Nat) (header : Nat → Option Nat) (fuel : Nat)
    (blockHash prevHash txCount blockTime : Nat) (commitOk : Bool) :
    Option (RtState × Nat × Nat × Nat) :=
  if (match st.lastBlock with | some b => b != prevHash | none => false : Bool) then
    match find_fork_root st.db st.name header prevHash fuel with
    | some root =>
      let db' :=
        if !st.skipInputs then st.db.drop_blocks (root.height + 1) st.name
        else st.db.drop_runes_blocks (root.height + 1) st.name
      some ({ st with db := db' }, root.height, root.hash, 0)
    | none => none
  else
    if st.dryRun then some (st, height, blockHash, txCount)
    else if !commitOk then none
    else
      some ({ st with db := st.db.insert_block height blockHash blockTime st.name },
        height, blockHash, txCount)

/-- The post-processing of one successful `index_block` inside `Rt::_run`
(rt.rs:190-227): the fork branch (`height < current || tx_count == 0`) moves
the checkpoint back to `height` and resumes at `height + 1`; the normal
branch advances the checkpoint to `current` and resumes at `current + 1`.
Returns the new runtime state and the next `current_block`. -/
def runStep (current : Nat) (res : RtState × Nat × Nat × Nat) : RtState × Nat :=
  let st := res.1
  let height := res.2.1
  let hash := res.2.2.1
  let txCount := res.2.2.2
  if height < current ∨ txCount = 0 then
    let db' := if st.dryRun then st.db else st.db.update_last_block st.name height
    ({ st with db := db', lastBlock := some hash }, height + 1)
  else
    let db' := if st.dryRun then st.db else st.db.update_last_block st.name current
    ({ st with db := db', lastBlock := some hash }, current + 1)

/-- `Rt::starting_block` (rt.rs:234-248).  `checkpoint` is the stored
`last_indexed_block` row (`none` = the read failed / no row, on which the
source writes a checkpoint of height 0); returns the first height to process
and whether the height-0 checkpoint was written. -/
def starting_block (checkpoint : Option Nat) (startingHeight : Nat) : Nat × Bool :=
  match checkpoint with
  | some b => (Nat.max (if 0 < b then b + 1 else 0) startingHeight, false)
  | none => (Nat.max 0 startingHeight, true)

/-! ## Theorems -/

/-- C6: assuming `in_circulation = minted − burned` (stated exactly, i.e.
`in_circulation + burned = minted`), `add_mint` bumps `mints` by one and adds
the amount to both `minted` and `in_circulation`, `burn` moves the amount
from `in_circulation` to `burned`, an over-large burn changes nothing, and
both mutations keep the equation, whence `burned ≤ minted` afterwards. -/
theorem rune_counter_mutations (r : RuneRow) (a b : Nat)
    (h : r.inCirculation + r.burned = r.minted) :
    ((r.add_mint a).mints = r.mints + 1 ∧
      (r.add_mint a).minted = r.minted + a ∧
      (r.add_mint a).inCirculation = r.inCirculation + a ∧
      (r.add_mint a).burned = r.burned ∧
      (r.add_mint a).inCirculation + (r.add_mint a).burned = (r.add_mint a).minted) ∧
    ((b ≤ r.inCirculation →
        (r.burn b).burned = r.burned + b ∧
        (r.burn b).inCirculation = r.inCirculation - b ∧
        (r.burn b).inCirculation + (r.burn b).burned = (r.burn b).minted) ∧
      (r.inCirculation < b → r.burn b = r)) ∧
    (r.burn b).burned ≤ (r.burn b).minted := by
  unfold RuneRow.add_mint RuneRow.burn
  refine ⟨⟨rfl, rfl, rfl, rfl, by simp; omega⟩, ⟨fun hle => ?_, fun hgt => ?_⟩, ?_⟩
  · rw [if_neg (by omega)]
    exact ⟨rfl, rfl, by simp; omega⟩
  · rw [if_pos hgt]
  · by_cases hc : r.inCirculation < b
    · rw [if_pos hc]; omega
    · rw [if_neg hc]; simp; omega

/-- Witness for `rune_counter_mutations` at a concrete record. -/
theorem rune_counter_mutations_witness :
    let r : RuneRow := ⟨"RUNEX", 100, 0, 1, 5, 4, 2⟩
    r.inCirculation + r.burned = r.minted ∧ (r.burn 3).burned ≤ (r.burn 3).minted :=
  ⟨by decide, (rune_counter_mutations ⟨"RUNEX", 100, 0, 1, 5, 4, 2⟩ 7 3 (by decide)).2.2⟩

/-- C4: for a rune with terms, the mint check yields the per-mint `amount`
iff `mints < cap`, `H ≥ start` (when start is defined) and `H < end` (when
end is defined); any `ok` outcome equals the per-mint amount; a rune without
terms is never mintable; and `start`/`end` are the max/min (or the defined
one) of the relative (`B + offset`) and absolute bounds. -/
theorem mint_checker_spec (c : MintChecker) (H : Nat) :
    (∀ terms, c.terms = some terms →
      (c.mintable H = Except.ok (terms.amount.getD 0) ↔
        (c.mints < terms.cap.getD 0 ∧
          (∀ s, c.start = some s → s ≤ H) ∧
          (∀ e, c.endH = some e → H < e)))) ∧
    (∀ a, c.mintable H = Except.ok a → ∃ terms, c.terms = some terms ∧ a = terms.amount.getD 0) ∧
    (c.terms = none → c.mintable H = Except.error MintError.unmintable) ∧
    (∀ terms, c.terms = some terms →
      c.start = (match terms.offset.1, terms.height.1 with
        | some off, some abs => some (max (c.block + off) abs)
        | some off, none => some (c.block + off)
        | none, abs => abs) ∧
      c.endH = (match terms.offset.2, terms.height.2 with
        | some off, some abs => some (min (c.block + off) abs)
        | some off, none => some (c.block + off)
        | none, abs => abs)) := by
  have hEval : ∀ terms, c.terms = some terms → c.mintable H =
      (match c.start with
       | some s => if H < s then Except.error (MintError.startAt s)
         else
           (match c.endH with
            | some e => if e ≤ H then Except.error (MintError.endAt e)
              else if terms.cap.getD 0 ≤ c.mints then
                Except.error (MintError.cap (terms.cap.getD 0))
              else Except.ok (terms.amount.getD 0)
            | none =>
              if terms.cap.getD 0 ≤ c.mints then
                Except.error (MintError.cap (terms.cap.getD 0))
              else Except.ok (terms.amount.getD 0))
       | none =>
         (match c.endH with
          | some e => if e ≤ H then Except.error (MintError.endAt e)
            else if terms.cap.getD 0 ≤ c.mints then
              Except.error (MintError.cap (terms.cap.getD 0))
            else Except.ok (terms.amount.getD 0)
          | none =>
            if terms.cap.getD 0 ≤ c.mints then
              Except.error (MintError.cap (terms.cap.getD 0))
            else Except.ok (terms.amount.getD 0))) := by
    intro terms ht
    unfold MintChecker.mintable
    rw [ht]
  refine ⟨fun terms ht => ?_, fun a ha => ?_, fun ht => ?_, fun terms ht => ?_⟩
  · rw [hEval terms ht]
    rcases hstart : c.start with _ | s0 <;> rcases hend : c.endH with _ | e0 <;>
      simp only [hstart, hend]
    · constructor
      · intro hok
        split_ifs at hok with hcap
        exact ⟨by omega, by simp, by simp⟩
      · rintro ⟨hcap, -, -⟩
        rw [if_neg (by omega)]
    · constructor
      · intro hok
        split_ifs at hok with hend2 hcap
        refine ⟨by omega, by simp, fun e he => ?_⟩
        cases he
        omega
      · rintro ⟨hcap, -, he⟩
        have := he e0 rfl
        rw [if_neg (by omega), if_neg (by omega)]
    · constructor
      · intro hok
        split_ifs at hok with hlt hcap
        refine ⟨by omega, fun s hs => ?_, by simp⟩
        cases hs
        omega
      · rintro ⟨hcap, hs, -⟩
        have := hs s0 rfl
        rw [if_neg (by omega), if_neg (by omega)]
    · constructor
      · intro hok
        split_ifs at hok with hlt hend2 hcap
        refine ⟨by omega, fun s hs => ?_, fun e he => ?_⟩
        · cases hs
          omega
        · cases he
          omega
      · rintro ⟨hcap, hs, he⟩
        have h1 := hs s0 rfl
        have h2 := he e0 rfl
        rw [if_neg (by omega), if_neg (by omega), if_neg (by omega)]
  · rcases ht : c.terms with _ | terms
    · unfold MintChecker.mintable at ha
      rw [ht] at ha
      simp at ha
    · refine ⟨terms, rfl, ?_⟩
      rw [hEval terms ht] at ha
      rcases hstart : c.start with _ | s0 <;> rcases hend : c.endH with _ | e0 <;>
        simp only [hstart, hend] at ha <;> split_ifs at ha <;> simp at ha <;> omega
  · unfold MintChecker.mintable
    rw [ht]
  · unfold MintChecker.start MintChecker.endH
    rw [ht]
    obtain ⟨am, cp, hh, ho⟩ := terms
    obtain ⟨h1, h2⟩ := hh
    obtain ⟨o1, o2⟩ := ho
    constructor
    · rcases o1 with _ | off <;> rcases h1 with _ | abs <;> rfl
    · rcases o2 with _ | off <;> rcases h2 with _ | abs <;> rfl


/-- Witness for `mint_checker_spec`: a rune etched at block 2 with
`amount = 10`, `cap = 5`, absolute window `[3, 100)`, offset window
`[1, 50)`, no mints yet, is mintable at height 10 for amount 10. -/
theorem mint_checker_spec_witness :
    MintChecker.mintable ⟨2, 0, 0, some ⟨some 10, some 5, (some 3, some 100), (some 1, some 50)⟩⟩
      10 = Except.ok 10 := by
  have h := (mint_checker_spec
    ⟨2, 0, 0, some ⟨some 10, some 5, (some 3, some 100), (some 1, some 50)⟩⟩ 10).1
    ⟨some 10, some 5, (some 3, some 100), (some 1, some 50)⟩ rfl
  refine h.mpr ⟨by decide, fun s hs => ?_, fun e he => ?_⟩
  · cases hs
    decide
  · cases he
    decide

/-- C8 (counterexample): with a persisted checkpoint of 0 and configured
start 0, the first processed height is 0, not `max (0+1) 0 = 1` as the claim
states for every persisted checkpoint. -/
theorem starting_block_checkpoint_zero :
    (starting_block (some 0) 0).1 = 0 ∧ (0 : Nat) ≠ Nat.max (0 + 1) 0 := by
  decide

/-- C8 (amended): for a persisted checkpoint `c > 0` the first processed
height is `max (c+1) s`; a persisted checkpoint of 0 behaves like a missing
one and yields `max 0 s`; a missing checkpoint writes height 0 and yields
`max 0 s`. -/
theorem starting_block_spec (c s : Nat) (hc : 0 < c) :
    (starting_block (some c) s).1 = Nat.max (c + 1) s ∧
    (starting_block (some 0) s).1 = Nat.max 0 s ∧
    (starting_block none s).1 = Nat.max 0 s ∧ (starting_block none s).2 = true := by
  simp only [starting_block]
  rw [if_pos hc]
  simp

/-- Witness for `starting_block_spec` at checkpoint 5, start 3. -/
theorem starting_block_spec_witness :
    0 < 5 ∧ (starting_block (some 5) 3).1 = Nat.max (5 + 1) 3 :=
  ⟨by decide, (starting_block_spec 5 3 (by decide)).1⟩

/-- The collector loop returns the accumulated result as soon as the target
is covered. -/
theorem collectLoop_done (utxos : List Utxo) (target collected idx : Nat)
    (result : List Utxo) (h : ¬collected < target) :
    collectLoop utxos target collected idx result = Sum.inr result := by
  unfold collectLoop
  rw [dif_neg h]

/-- `binarySearchGo` stays within the bounds it was given. -/
theorem binarySearchGo_bounds (arr : List Utxo) (target : Nat) :
    ∀ n left right, right - left = n → left ≤ right →
      left ≤ binarySearchGo arr target left right ∧
        binarySearchGo arr target left right ≤ right := by
  intro n
  induction n using Nat.strong_induction_on with
  | _ n ih =>
    intro left right hn hlr
    unfold binarySearchGo
    by_cases h : left < right
    · rw [dif_pos h]
      simp only []
      set mid := left + (right - left) / 2 with hmid
      have hmid_lt : mid < right := by omega
      by_cases hcmp : (arr.getD mid default).amount > target
      · rw [if_pos hcmp]
        have := ih (right - (mid + 1)) (by omega) (mid + 1) right rfl (by omega)
        omega
      · rw [if_neg hcmp]
        have := ih (mid - left) (by omega) left mid rfl (by omega)
        omega
    · rw [dif_neg h]
      omega

/-- When `binary_search_next_ge_than` answers `some found`, the element at
`found` is in range and its amount covers the target. -/
theorem bsearch_some_spec (arr : List Utxo) (target found : Nat)
    (h : binary_search_next_ge_than arr target = some found) :
    found < arr.length ∧ target ≤ (arr.getD found default).amount := by
  have hb := binarySearchGo_bounds arr target (arr.length - 0) 0 arr.length rfl (Nat.zero_le _)
  simp only [binary_search_next_ge_than] at h
  split at h
  · rename_i hc
    cases h
    exact hc
  · split at h
    · rename_i hc
      cases h
      exact ⟨by omega, hc.2⟩
    · cases h

/-- Amounts vanish beyond the end of the candidate list. -/
theorem amt_out_of_range (utxos : List Utxo) (i : Nat) (h : utxos.length ≤ i) :
    amt utxos i = 0 := by
  unfold amt
  rw [List.getD_eq_default _ _ h]
  rfl

/-- On a descending-sorted list the indexed amount function is antitone. -/
theorem amt_antitone (utxos : List Utxo) (hs : SortedDesc utxos) (i j : Nat) (hij : i ≤ j) :
    amt utxos j ≤ amt utxos i := by
  by_cases hj : j < utxos.length
  · have hi : i < utxos.length := by omega
    rcases Nat.eq_or_lt_of_le hij with rfl | hlt
    · exact le_refl _
    · have := List.pairwise_iff_get.mp hs ⟨i, hi⟩ ⟨j, hj⟩ hlt
      unfold amt
      rw [List.getD_eq_get? , List.getD_eq_get?]
      rw [List.get?_eq_get hi, List.get?_eq_get hj]
      simpa using this
  · rw [amt_out_of_range utxos j (by omega)]
    exact Nat.zero_le _

/-- `takeSum` at a successor index adds the next amount. -/
theorem takeSum_succ (utxos : List Utxo) (k : Nat) (h : k < utxos.length) :
    takeSum utxos (k + 1) = takeSum utxos k + amt utxos k := by
  unfold takeSum amountsSum amt
  rw [List.take_succ]
  have hk : utxos[k]? = some (utxos.getD k default) := by
    rw [List.getD_eq_get? ]
    rw [List.get?_eq_get h]
    simp [List.get?_eq_get h, List.getElem?_eq_getElem h]
  rw [hk]
  simp

/-- The element a non-empty drop starts with is the `idx`-th element. -/
theorem drop_head_eq (utxos : List Utxo) (idx : Nat) (u : Utxo) (rest : List Utxo)
    (h : utxos.drop idx = u :: rest) :
    utxos.getD idx default = u ∧ idx < utxos.length := by
  have hlen := congrArg List.length h
  simp only [List.length_drop, List.length_cons] at hlen
  have hidx : idx < utxos.length := by omega
  constructor
  · have h0 : (utxos.drop idx)[0]? = some u := by rw [h]; simp
    rw [List.getElem?_drop] at h0
    rw [List.getD_eq_get? ]
    simp only [Nat.add_zero] at h0
    rw [← List.get?_eq_getElem?] at h0
    rw [h0]
    rfl
  · exact hidx

/-- Indexing into a drop shifts the index. -/
theorem drop_getD (utxos : List Utxo) (idx j : Nat) (hj : idx + j < utxos.length) :
    (utxos.drop idx).getD j default = utxos.getD (idx + j) default := by
  rw [List.getD_eq_get?, List.getD_eq_get?]
  rw [List.get?_eq_getElem?, List.get?_eq_getElem?]
  rw [List.getElem?_drop]

/-- One loop step: no candidates remain, fail with `NotEnoughBalance`. -/
theorem collectLoop_nil (utxos : List Utxo) (target collected idx : Nat) (result : List Utxo)
    (hlt : collected < target) (hdrop : utxos.drop idx = []) :
    collectLoop utxos target collected idx result = Sum.inl ⟨collected, target⟩ := by
  conv_lhs => unfold collectLoop
  rw [dif_pos hlt]
  split
  · rfl
  · rename_i u rest heq
    rw [hdrop] at heq
    cases heq

/-- One loop step: the head covers the remainder and the binary search finds
an index; the loop recurses with `idx := found`. -/
theorem collectLoop_cons_bs_some (utxos : List Utxo) (target collected idx : Nat)
    (result : List Utxo) (u : Utxo) (rest : List Utxo) (found : Nat)
    (hlt : collected < target) (hdrop : utxos.drop idx = u :: rest)
    (hge : target - collected ≤ u.amount)
    (hbs : binary_search_next_ge_than (u :: rest) (target - collected) = some found) :
    collectLoop utxos target collected idx result
      = collectLoop utxos target (collected + ((u :: rest).getD found default).amount) found
          (result ++ [(u :: rest).getD found default]) := by
  conv_lhs => unfold collectLoop
  rw [dif_pos hlt]
  split
  · rename_i heq
    rw [hdrop] at heq
    cases heq
  · rename_i u' rest' heq
    rw [hdrop] at heq
    injection heq with h1 h2
    subst h1
    subst h2
    rw [dif_pos hge]
    split
    · rename_i found' heq2
      rw [hbs] at heq2
      injection heq2 with h3
      subst h3
      rfl
    · rename_i heq2
      rw [hbs] at heq2
      cases heq2

/-- One loop step: the head covers the remainder but the binary search finds
nothing; the head is taken and `idx` advances by one. -/
theorem collectLoop_cons_bs_none (utxos : List Utxo) (target collected idx : Nat)
    (result : List Utxo) (u : Utxo) (rest : List Utxo)
    (hlt : collected < target) (hdrop : utxos.drop idx = u :: rest)
    (hge : target - collected ≤ u.amount)
    (hbs : binary_search_next_ge_than (u :: rest) (target - collected) = none) :
    collectLoop utxos target collected idx result
      = collectLoop utxos target (collected + u.amount) (idx + 1) (result ++ [u]) := by
  conv_lhs => unfold collectLoop
  rw [dif_pos hlt]
  split
  · rename_i heq
    rw [hdrop] at heq
    cases heq
  · rename_i u' rest' heq
    rw [hdrop] at heq
    injection heq with h1 h2
    subst h1
    subst h2
    rw [dif_pos hge]
    split
    · rename_i found' heq2
      rw [hbs] at heq2
      cases heq2
    · rfl

/-- One loop step: the head does not cover the remainder; it is taken and
`idx` advances by one. -/
theorem collectLoop_cons_small (utxos : List Utxo) (target collected idx : Nat)
    (result : List Utxo) (u : Utxo) (rest : List Utxo)
    (hlt : collected < target) (hdrop : utxos.drop idx = u :: rest)
    (hge : ¬target - collected ≤ u.amount) :
    collectLoop utxos target collected idx result
      = collectLoop utxos target (collected + u.amount) (idx + 1) (result ++ [u]) := by
  conv_lhs => unfold collectLoop
  rw [dif_pos hlt]
  split
  · rename_i heq
    rw [hdrop] at heq
    cases heq
  · rename_i u' rest' heq
    rw [hdrop] at heq
    injection heq with h1 h2
    subst h1
    subst h2
    rw [dif_neg hge]

/-- Characterisation of a full collector run started at prefix position
`idx`: it either fails, or returns the greedy prefix `utxos.take k` followed
by one final pick `utxos[j]` (`k ≤ j`), where the prefix alone is short of
the target and the final pick covers the remainder. -/
theorem collectLoop_spec (utxos : List Utxo) (target : Nat) :
    ∀ idx, takeSum utxos idx < target →
      (∃ e, collectLoop utxos target (takeSum utxos idx) idx (utxos.take idx) = Sum.inl e) ∨
      (∃ k j, idx ≤ k ∧ k ≤ j ∧ j < utxos.length ∧
        collectLoop utxos target (takeSum utxos idx) idx (utxos.take idx)
          = Sum.inr (utxos.take k ++ [utxos.getD j default]) ∧
        takeSum utxos k < target ∧ target ≤ takeSum utxos k + amt utxos j) := by
  suffices h : ∀ n idx, utxos.length - idx = n → takeSum utxos idx < target →
      (∃ e, collectLoop utxos target (takeSum utxos idx) idx (utxos.take idx) = Sum.inl e) ∨
      (∃ k j, idx ≤ k ∧ k ≤ j ∧ j < utxos.length ∧
        collectLoop utxos target (takeSum utxos idx) idx (utxos.take idx)
          = Sum.inr (utxos.take k ++ [utxos.getD j default]) ∧
        takeSum utxos k < target ∧ target ≤ takeSum utxos k + amt utxos j) by
    intro idx hidx
    exact h (utxos.length - idx) idx rfl hidx
  intro n
  induction n using Nat.strong_induction_on with
  | _ n ih =>
    intro idx hn hlt
    rcases hdrop : utxos.drop idx with _ | ⟨u, rest⟩
    · exact Or.inl ⟨⟨takeSum utxos idx, target⟩, collectLoop_nil _ _ _ _ _ hlt hdrop⟩
    · obtain ⟨hu, hidxlen⟩ := drop_head_eq utxos idx u rest hdrop
      have hlen_drop : rest.length + 1 = utxos.length - idx := by
        have := congrArg List.length hdrop
        simp only [List.length_drop, List.length_cons] at this
        omega
      by_cases hge : target - takeSum utxos idx ≤ u.amount
      · rcases hbs : binary_search_next_ge_than (u :: rest) (target - takeSum utxos idx)
          with _ | found
        · rw [collectLoop_cons_bs_none _ _ _ _ _ _ _ hlt hdrop hge hbs]
          rw [collectLoop_done _ _ _ _ _ (by omega)]
          right
          refine ⟨idx, idx, le_refl _, le_refl _, hidxlen, ?_, hlt, ?_⟩
          · rw [hu]
          · unfold amt
            rw [hu]
            omega
        · obtain ⟨hfound_lt, hfound_ge⟩ := bsearch_some_spec _ _ _ hbs
          simp only [List.length_cons] at hfound_lt
          have hj : idx + found < utxos.length := by omega
          have hgd : (u :: rest).getD found default = utxos.getD (idx + found) default := by
            rw [← hdrop]
            exact drop_getD utxos idx found hj
          rw [collectLoop_cons_bs_some _ _ _ _ _ _ _ _ hlt hdrop hge hbs]
          rw [hgd] at hfound_ge ⊢
          rw [collectLoop_done _ _ _ _ _ (by omega)]
          right
          refine ⟨idx, idx + found, le_refl _, Nat.le_add_right _ _, hj, rfl, hlt, ?_⟩
          unfold amt
          omega
      · rw [collectLoop_cons_small _ _ _ _ _ _ _ hlt hdrop hge]
        have hts : takeSum utxos (idx + 1) = takeSum utxos idx + amt utxos idx :=
          takeSum_succ utxos idx hidxlen
        have hamt : amt utxos idx = u.amount := by
          unfold amt
          rw [hu]
        have hgetelem : utxos[idx]? = some u := by
          rw [List.getElem?_eq_getElem hidxlen]
          have h1 : utxos.getD idx default = utxos[idx] := by
            rw [List.getD_eq_getElem?_getD, List.getElem?_eq_getElem hidxlen]
            rfl
          rw [← h1, hu]
        have htake : utxos.take (idx + 1) = utxos.take idx ++ [u] := by
          rw [List.take_succ, hgetelem]
          rfl
        by_cases hlt2 : takeSum utxos (idx + 1) < target
        · have hrec := ih (utxos.length - (idx + 1)) (by omega) (idx + 1) rfl hlt2
          rw [hts, hamt, htake] at hrec
          rcases hrec with ⟨e, he⟩ | ⟨k, j, hk, hkj, hjlen, heq, hks, hkt⟩
          · exact Or.inl ⟨e, he⟩
          · exact Or.inr ⟨k, j, by omega, hkj, hjlen, heq, hks, hkt⟩
        · rw [collectLoop_done _ _ _ _ _ (by rw [hts, hamt] at hlt2; exact hlt2)]
          right
          refine ⟨idx, idx, le_refl _, le_refl _, hidxlen, ?_, hlt, ?_⟩
          · rw [hu]
          · rw [hts] at hlt2
            omega

/-- For an antitone `a`, a sum over any finite index set is dominated by the
sum over an initial segment of the same size. -/
theorem sum_sel_le_range (a : Nat → Nat) (anti : ∀ i j, i ≤ j → a j ≤ a i) :
    ∀ (s : Finset Nat), (∑ i ∈ s, a i) ≤ ∑ i ∈ Finset.range s.card, a i := by
  suffices h : ∀ n (s : Finset Nat), s.card = n →
      (∑ i ∈ s, a i) ≤ ∑ i ∈ Finset.range n, a i by
    intro s
    exact h s.card s rfl
  intro n
  induction n with
  | zero =>
    intro s hs
    rw [Finset.card_eq_zero.mp hs]
    simp
  | succ m ihm =>
    intro s hs
    have hne : s.Nonempty := Finset.card_pos.mp (by omega)
    have hM : s.max' hne ∈ s := Finset.max'_mem s hne
    have hsub : s ⊆ Finset.range (s.max' hne + 1) := by
      intro x hx
      have := Finset.le_max' s x hx
      exact Finset.mem_range.mpr (by omega)
    have hcard_le : s.card ≤ s.max' hne + 1 := by
      have := Finset.card_le_card hsub
      rwa [Finset.card_range] at this
    have herase : (s.erase (s.max' hne)).card = m := by
      rw [Finset.card_erase_of_mem hM, hs]
      omega
    have hIH := ihm (s.erase (s.max' hne)) herase
    have hsum := Finset.sum_erase_add s a hM
    have hanti := anti m (s.max' hne) (by omega)
    rw [Finset.sum_range_succ]
    omega

/-- `takeSum` as a `Finset.range` sum of the indexed amounts. -/
theorem takeSum_eq_sum_range (utxos : List Utxo) :
    ∀ k, k ≤ utxos.length → takeSum utxos k = ∑ i ∈ Finset.range k, amt utxos i := by
  intro k
  induction k with
  | zero =>
    intro _
    simp [takeSum, amountsSum]
  | succ m ihm =>
    intro h
    rw [takeSum_succ utxos m (by omega), Finset.sum_range_succ, ihm (by omega)]

/-- A prefix is the list of its indexed elements. -/
theorem take_eq_range_map (utxos : List Utxo) :
    ∀ k, k ≤ utxos.length →
      utxos.take k = (List.range k).map (fun i => utxos.getD i default) := by
  intro k
  induction k with
  | zero =>
    intro _
    simp
  | succ m ihm =>
    intro h
    have hm : m < utxos.length := by omega
    have h2 : utxos[m]? = some (utxos.getD m default) := by
      rw [List.getD_eq_getElem?_getD, List.getElem?_eq_getElem hm]
      rfl
    rw [List.take_succ, List.range_succ, List.map_append, ← ihm (by omega), h2]
    rfl

/-- Any `Nodup` selection of at most `k` candidate indices carries at most
`takeSum utxos k` (with `utxos` sorted descending). -/
theorem sel_sum_le_takeSum (utxos : List Utxo) (hs : SortedDesc utxos)
    (sel : List Nat) (hnd : sel.Nodup) (k : Nat) (hk : sel.length ≤ k)
    (hklen : k ≤ utxos.length) :
    amountsSum (sel.map (fun i => utxos.getD i default)) ≤ takeSum utxos k := by
  have h1 : amountsSum (sel.map (fun i => utxos.getD i default))
      = (sel.map (amt utxos)).sum := by
    unfold amountsSum amt
    rw [List.map_map]
    rfl
  have h2 : (sel.map (amt utxos)).sum = ∑ i ∈ sel.toFinset, amt utxos i :=
    (List.sum_toFinset _ hnd).symm
  have h3 : sel.toFinset.card = sel.length := List.toFinset_card_of_nodup hnd
  have h4 := sum_sel_le_range (amt utxos) (fun i j hij => amt_antitone utxos hs i j hij)
    sel.toFinset
  rw [h3] at h4
  have h5 : ∑ i ∈ Finset.range sel.length, amt utxos i
      ≤ ∑ i ∈ Finset.range k, amt utxos i :=
    Finset.sum_le_sum_of_subset (Finset.range_subset.mpr hk)
  rw [takeSum_eq_sum_range utxos k hklen]
  omega

/-- C2: on a descending-sorted candidate list with target `≥ 1`,
`min_utxos_to_reach_target` returns either `NotEnoughBalance` or a selection
of pairwise-distinct candidates whose amounts sum to at least the target and
whose cardinality is minimal among all distinct-candidate selections meeting
the target (hence no greater than any prefix-based greedy solution). -/
theorem min_utxos_spec (utxos : List Utxo) (target : Nat)
    (hs : SortedDesc utxos) (ht : 1 ≤ target) :
    (∃ e, min_utxos_to_reach_target utxos target = Sum.inl e) ∨
    (∃ (out : List Utxo) (picks : List Nat),
      min_utxos_to_reach_target utxos target = Sum.inr out ∧
      target ≤ amountsSum out ∧
      picks.Nodup ∧ (∀ i ∈ picks, i < utxos.length) ∧
      out = picks.map (fun i => utxos.getD i default) ∧
      (∀ sel : List Nat, sel.Nodup → (∀ i ∈ sel, i < utxos.length) →
        target ≤ amountsSum (sel.map (fun i => utxos.getD i default)) →
        out.length ≤ sel.length)) := by
  by_cases hemp : utxos.isEmpty
  · left
    refine ⟨⟨0, target⟩, ?_⟩
    unfold min_utxos_to_reach_target
    rw [if_pos hemp]
  · have h0 : takeSum utxos 0 < target := by
      have : takeSum utxos 0 = 0 := rfl
      omega
    have hchar := collectLoop_spec utxos target 0 h0
    have hrw : collectLoop utxos target (takeSum utxos 0) 0 (utxos.take 0)
        = collectLoop utxos target 0 0 [] := rfl
    rw [hrw] at hchar
    have hmin : min_utxos_to_reach_target utxos target = collectLoop utxos target 0 0 [] := by
      unfold min_utxos_to_reach_target
      rw [if_neg hemp]
    rcases hchar with ⟨e, he⟩ | ⟨k, j, -, hkj, hjlen, heq, hks, hkt⟩
    · left
      exact ⟨e, by rw [hmin, he]⟩
    · right
      have hklen : k < utxos.length := by omega
      have htakelen : (utxos.take k).length = k := by
        rw [List.length_take]
        omega
      refine ⟨utxos.take k ++ [utxos.getD j default], List.range k ++ [j],
        by rw [hmin, heq], ?_, ?_, ?_, ?_, ?_⟩
      · have : amountsSum (utxos.take k ++ [utxos.getD j default])
            = takeSum utxos k + amt utxos j := by
          unfold amountsSum takeSum amt amountsSum
          rw [List.map_append, List.sum_append]
          simp
        omega
      · rw [List.nodup_append]
        refine ⟨List.nodup_range _, List.nodup_singleton j, ?_⟩
        intro x hx
        rw [List.mem_range] at hx
        simp only [List.mem_singleton]
        omega
      · intro i hi
        rw [List.mem_append] at hi
        rcases hi with hi | hi
        · rw [List.mem_range] at hi
          omega
        · rw [List.mem_singleton] at hi
          omega
      · rw [List.map_append, ← take_eq_range_map utxos k (by omega)]
        rfl
      · intro sel hnd hbound hsum
        by_contra hcon
        push_neg at hcon
        rw [List.length_append, htakelen, List.length_singleton] at hcon
        have hsellen : sel.length ≤ k := by omega
        have := sel_sum_le_takeSum utxos hs sel hnd k hsellen (by omega)
        omega

/-- Witness for `min_utxos_spec`: the candidate list `[50, 40, 30, 20]`
(descending) with target 70, from the repository's own unit tests. -/
theorem min_utxos_spec_witness :
    SortedDesc [⟨0, 50⟩, ⟨1, 40⟩, ⟨2, 30⟩, ⟨3, 20⟩] ∧ 1 ≤ 70 ∧
    ((∃ e, min_utxos_to_reach_target [⟨0, 50⟩, ⟨1, 40⟩, ⟨2, 30⟩, ⟨3, 20⟩] 70 = Sum.inl e) ∨
    (∃ (out : List Utxo) (picks : List Nat),
      min_utxos_to_reach_target [⟨0, 50⟩, ⟨1, 40⟩, ⟨2, 30⟩, ⟨3, 20⟩] 70 = Sum.inr out ∧
      70 ≤ amountsSum out ∧
      picks.Nodup ∧ (∀ i ∈ picks, i < (4 : Nat)) ∧
      out = picks.map (fun i => List.getD [⟨0, 50⟩, ⟨1, 40⟩, ⟨2, 30⟩, ⟨3, 20⟩] i default) ∧
      (∀ sel : List Nat, sel.Nodup → (∀ i ∈ sel, i < (4 : Nat)) →
        70 ≤ amountsSum (sel.map (fun i =>
          List.getD [⟨0, 50⟩, ⟨1, 40⟩, ⟨2, 30⟩, ⟨3, 20⟩] i default)) →
        out.length ≤ sel.length))) :=
  ⟨by decide, by decide, min_utxos_spec [⟨0, 50⟩, ⟨1, 40⟩, ⟨2, 30⟩, ⟨3, 20⟩] 70
    (by decide) (by decide)⟩

/-- C10: every successful collector result consists of pairwise-distinct
candidates — the terminal binary-search pick (whose subset-relative index is
assigned to `idx` unadjusted) always ends the loop, so no candidate is taken
twice — and its length is bounded by the number of candidates. -/
theorem min_utxos_distinct_picks (utxos : List Utxo) (target : Nat)
    (hs : SortedDesc utxos) (ht : 1 ≤ target) (out : List Utxo)
    (hok : min_utxos_to_reach_target utxos target = Sum.inr out) :
    (∃ picks : List Nat, picks.Nodup ∧ (∀ i ∈ picks, i < utxos.length) ∧
      out = picks.map (fun i => utxos.getD i default)) ∧
    out.length ≤ utxos.length := by
  by_cases hemp : utxos.isEmpty
  · exfalso
    unfold min_utxos_to_reach_target at hok
    rw [if_pos hemp] at hok
    cases hok
  · have h0 : takeSum utxos 0 < target := by
      have : takeSum utxos 0 = 0 := rfl
      omega
    have hchar := collectLoop_spec utxos target 0 h0
    have hrw : collectLoop utxos target (takeSum utxos 0) 0 (utxos.take 0)
        = collectLoop utxos target 0 0 [] := rfl
    rw [hrw] at hchar
    have hmin : min_utxos_to_reach_target utxos target = collectLoop utxos target 0 0 [] := by
      unfold min_utxos_to_reach_target
      rw [if_neg hemp]
    rw [hmin] at hok
    rcases hchar with ⟨e, he⟩ | ⟨k, j, -, hkj, hjlen, heq, -, -⟩
    · rw [he] at hok
      cases hok
    · rw [heq] at hok
      injection hok with hout
      have hklen : k < utxos.length := by omega
      have htakelen : (utxos.take k).length = k := by
        rw [List.length_take]
        omega
      constructor
      · refine ⟨List.range k ++ [j], ?_, ?_, ?_⟩
        · rw [List.nodup_append]
          refine ⟨List.nodup_range _, List.nodup_singleton j, ?_⟩
          intro x hx
          rw [List.mem_range] at hx
          simp only [List.mem_singleton]
          omega
        · intro i hi
          rw [List.mem_append] at hi
          rcases hi with hi | hi
          · rw [List.mem_range] at hi
            omega
          · rw [List.mem_singleton] at hi
            omega
        · rw [List.map_append, ← take_eq_range_map utxos k (by omega), ← hout]
          rfl
      · rw [← hout, List.length_append, htakelen, List.length_singleton]
        omega

/-- Witness for `min_utxos_distinct_picks`: the duplicate-amount list
`[5, 5]` with target 6 (both coins are taken; they are distinct candidates
with equal amounts). -/
theorem min_utxos_distinct_picks_witness :
    SortedDesc [⟨0, 5⟩, ⟨1, 5⟩] ∧ 1 ≤ 6 ∧
    min_utxos_to_reach_target [⟨0, 5⟩, ⟨1, 5⟩] 6 = Sum.inr [⟨0, 5⟩, ⟨1, 5⟩] ∧
    ((∃ picks : List Nat, picks.Nodup ∧ (∀ i ∈ picks, i < (2 : Nat)) ∧
      [(⟨0, 5⟩ : Utxo), ⟨1, 5⟩] = picks.map (fun i =>
        List.getD [⟨0, 5⟩, ⟨1, 5⟩] i default)) ∧
      ([(⟨0, 5⟩ : Utxo), ⟨1, 5⟩] : List Utxo).length ≤ (2 : Nat)) := by
  have hgo : binarySearchGo [⟨1, 5⟩] 1 0 1 = 1 := by
    unfold binarySearchGo
    norm_num
    unfold binarySearchGo
    norm_num
  have hbs : binary_search_next_ge_than [⟨1, 5⟩] 1 = some 0 := by
    unfold binary_search_next_ge_than
    simp only [List.length_cons, List.length_nil]
    rw [hgo]
    decide
  have h1 : collectLoop [⟨0, 5⟩, ⟨1, 5⟩] 6 0 0 [] = collectLoop [⟨0, 5⟩, ⟨1, 5⟩] 6 5 1 [⟨0, 5⟩] :=
    collectLoop_cons_small [⟨0, 5⟩, ⟨1, 5⟩] 6 0 0 [] ⟨0, 5⟩ [⟨1, 5⟩] (by decide) rfl (by decide)
  have h2 : collectLoop [⟨0, 5⟩, ⟨1, 5⟩] 6 5 1 [⟨0, 5⟩]
      = collectLoop [⟨0, 5⟩, ⟨1, 5⟩] 6 10 0 [⟨0, 5⟩, ⟨1, 5⟩] :=
    collectLoop_cons_bs_some [⟨0, 5⟩, ⟨1, 5⟩] 6 5 1 [⟨0, 5⟩] ⟨1, 5⟩ [] 0
      (by decide) rfl (by decide) hbs
  have h3 : collectLoop [⟨0, 5⟩, ⟨1, 5⟩] 6 10 0 [⟨0, 5⟩, ⟨1, 5⟩] = Sum.inr [⟨0, 5⟩, ⟨1, 5⟩] :=
    collectLoop_done _ _ _ _ _ (by decide)
  have heval : min_utxos_to_reach_target [⟨0, 5⟩, ⟨1, 5⟩] 6 = Sum.inr [⟨0, 5⟩, ⟨1, 5⟩] := by
    unfold min_utxos_to_reach_target
    rw [if_neg (by decide)]
    rw [h1, h2, h3]
  exact ⟨by decide, by decide, heval,
    min_utxos_distinct_picks [⟨0, 5⟩, ⟨1, 5⟩] 6 (by decide) (by decide) [⟨0, 5⟩, ⟨1, 5⟩] heval⟩

/-- A fork root found by the header walk is a block record of this indexer. -/
theorem find_fork_root_known (db : DbState) (indexerName : String) (header : Nat → Option Nat) :
    ∀ fuel hash root, find_fork_root db indexerName header hash fuel = some root →
      root ∈ db.blocks ∧ root.indexer = indexerName := by
  intro fuel
  induction fuel with
  | zero =>
    intro hash root h
    cases h
  | succ n ihn =>
    intro hash root h
    unfold find_fork_root at h
    rcases hgb : db.get_block hash indexerName with _ | b
    · rw [hgb] at h
      rcases hh : header hash with _ | prev
      · rw [hh] at h
        cases h
      · rw [hh] at h
        exact ihn prev root h
    · rw [hgb] at h
      injection h with hroot
      subst hroot
      unfold DbState.get_block at hgb
      have hmem := List.mem_of_find?_eq_some hgb
      have hpred := List.find?_some hgb
      simp only [Bool.and_eq_true, beq_iff_eq] at hpred
      exact ⟨hmem, hpred.2⟩

/-- After `drop_blocks h`, no `blocks` row of this indexer has height `≥ h`. -/
theorem drop_blocks_blocks_bound (db : DbState) (h : Nat) (name : String) :
    ∀ b ∈ (db.drop_blocks h name).blocks, b.indexer = name → b.height < h := by
  intro b hb hind
  unfold DbState.drop_blocks at hb
  simp only [List.mem_filter] at hb
  have hp := hb.2
  simp only [Bool.not_eq_true', Bool.and_eq_false_iff] at hp
  rcases hp with hp | hp
  · simp only [decide_eq_false_iff_not] at hp
    omega
  · rw [beq_eq_false_iff_ne] at hp
    exact absurd hind hp

/-- After `drop_blocks h`, no row of the four data tables has `block ≥ h`. -/
theorem drop_blocks_rows_bound (db : DbState) (h : Nat) (name : String) :
    (∀ r ∈ (db.drop_blocks h name).outputs, r.block < h) ∧
    (∀ r ∈ (db.drop_blocks h name).inputs, r.block < h) ∧
    (∀ r ∈ (db.drop_blocks h name).runesOutputs, r.block < h) ∧
    (∀ r ∈ (db.drop_blocks h name).runes, r.block < h) := by
  refine ⟨?_, ?_, ?_, ?_⟩ <;>
    · intro r hr
      unfold DbState.drop_blocks at hr
      simp only [List.mem_filter, Bool.not_eq_true', decide_eq_false_iff_not] at hr
      omega

/-- After `drop_runes_blocks h`, no `blocks` row of this indexer has height
`≥ h` and no runes-table row has `block ≥ h`. -/
theorem drop_runes_blocks_bound (db : DbState) (h : Nat) (name : String) :
    (∀ b ∈ (db.drop_runes_blocks h name).blocks, b.indexer = name → b.height < h) ∧
    (∀ r ∈ (db.drop_runes_blocks h name).runesOutputs, r.block < h) ∧
    (∀ r ∈ (db.drop_runes_blocks h name).runes, r.block < h) := by
  refine ⟨?_, ?_, ?_⟩
  · intro b hb hind
    unfold DbState.drop_runes_blocks at hb
    simp only [List.mem_filter] at hb
    have hp := hb.2
    simp only [Bool.not_eq_true', Bool.and_eq_false_iff] at hp
    rcases hp with hp | hp
    · simp only [decide_eq_false_iff_not] at hp
      omega
    · rw [beq_eq_false_iff_ne] at hp
      exact absurd hind hp
  all_goals
    intro r hr
    unfold DbState.drop_runes_blocks at hr
    simp only [List.mem_filter, Bool.not_eq_true', decide_eq_false_iff_not] at hr
    omega

/-- C3: when the fetched block's parent differs from the last committed hash
and the header walk finds a root known to this indexer, `index_block`
deletes this indexer's rows at heights `≥ root+1` (outputs, inputs, rune
outputs and runes for the BTC-style indexer; rune outputs and runes for the
runes indexer), and the `_run` step then stores checkpoint `root.height`,
sets the last committed hash to the root's hash, and resumes at
`root.height + 1`. -/
theorem fork_rewind_spec (st : RtState) (height : Nat) (header : Nat → Option Nat)
    (fuel : Nat) (blockHash prevHash txCount blockTime : Nat) (commitOk : Bool)
    (lb : Nat) (root : BlockRec)
    (hlb : st.lastBlock = some lb) (hne : lb ≠ prevHash)
    (hroot : find_fork_root st.db st.name header prevHash fuel = some root) :
    ∃ st', index_block st height header fuel blockHash prevHash txCount blockTime commitOk
        = some (st', root.height, root.hash, 0) ∧
      root ∈ st.db.blocks ∧ root.indexer = st.name ∧
      ∀ current,
        (runStep current (st', root.height, root.hash, 0)).2 = root.height + 1 ∧
        (runStep current (st', root.height, root.hash, 0)).1.lastBlock = some root.hash ∧
        (¬st.dryRun →
          (runStep current (st', root.height, root.hash, 0)).1.db.lastIndexed st.name
            = some root.height) ∧
        (∀ b ∈ (runStep current (st', root.height, root.hash, 0)).1.db.blocks,
          b.indexer = st.name → b.height ≤ root.height) ∧
        (¬st.skipInputs →
          (∀ r ∈ (runStep current (st', root.height, root.hash, 0)).1.db.outputs,
            r.block ≤ root.height) ∧
          (∀ r ∈ (runStep current (st', root.height, root.hash, 0)).1.db.inputs,
            r.block ≤ root.height) ∧
          (∀ r ∈ (runStep current (st', root.height, root.hash, 0)).1.db.runesOutputs,
            r.block ≤ root.height) ∧
          (∀ r ∈ (runStep current (st', root.height, root.hash, 0)).1.db.runes,
            r.block ≤ root.height)) ∧
        (st.skipInputs →
          (∀ r ∈ (runStep current (st', root.height, root.hash, 0)).1.db.runesOutputs,
            r.block ≤ root.height) ∧
          (∀ r ∈ (runStep current (st', root.height, root.hash, 0)).1.db.runes,
            r.block ≤ root.height)) := by
  have hknown := find_fork_root_known st.db st.name header fuel prevHash root hroot
  refine ⟨{ st with db := if !st.skipInputs then st.db.drop_blocks (root.height + 1) st.name
      else st.db.drop_runes_blocks (root.height + 1) st.name }, ?_, hknown.1, hknown.2, ?_⟩
  · unfold index_block
    have hcond : (match st.lastBlock with
        | some b => b != prevHash
        | none => false) = true := by
      rw [hlb]
      simp [hne]
    rw [hcond, if_pos rfl, hroot]
  · intro current
    unfold runStep
    rw [if_pos (Or.inr rfl)]
    have hdbeq : ∀ (db2 : DbState),
        (if st.dryRun then db2 else db2.update_last_block st.name root.height).blocks
            = db2.blocks ∧
        (if st.dryRun then db2 else db2.update_last_block st.name root.height).outputs
            = db2.outputs ∧
        (if st.dryRun then db2 else db2.update_last_block st.name root.height).inputs
            = db2.inputs ∧
        (if st.dryRun then db2 else db2.update_last_block st.name root.height).runesOutputs
            = db2.runesOutputs ∧
        (if st.dryRun then db2 else db2.update_last_block st.name root.height).runes
            = db2.runes := by
      intro db2
      by_cases hd : st.dryRun <;> simp [hd, DbState.update_last_block]
    refine ⟨rfl, rfl, ?_, ?_, ?_, ?_⟩
    · intro hdry
      rw [if_neg hdry]
      unfold DbState.update_last_block
      simp
    · intro b hb hind
      rcases (hdbeq _) with ⟨hblocks, -⟩
      rw [hblocks] at hb
      by_cases hskip : st.skipInputs
      · rw [if_neg (by simp [hskip])] at hb
        have := (drop_runes_blocks_bound st.db (root.height + 1) st.name).1 b hb hind
        omega
      · rw [if_pos (by simp [hskip])] at hb
        have := drop_blocks_blocks_bound st.db (root.height + 1) st.name b hb hind
        omega
    · intro hskip
      rcases (hdbeq _) with ⟨-, houts, hins, hros, hrs⟩
      rw [houts, hins, hros, hrs]
      rw [if_pos (by simp [hskip])]
      obtain ⟨h1, h2, h3, h4⟩ := drop_blocks_rows_bound st.db (root.height + 1) st.name
      exact ⟨fun r hr => by have := h1 r hr; omega, fun r hr => by have := h2 r hr; omega,
        fun r hr => by have := h3 r hr; omega, fun r hr => by have := h4 r hr; omega⟩
    · intro hskip
      rcases (hdbeq _) with ⟨-, -, -, hros, hrs⟩
      rw [hros, hrs]
      rw [if_neg (by simp [hskip])]
      obtain ⟨-, h3, h4⟩ := drop_runes_blocks_bound st.db (root.height + 1) st.name
      exact ⟨fun r hr => by have := h3 r hr; omega, fun r hr => by have := h4 r hr; omega⟩

/-- Witness for `fork_rewind_spec`: at height 100 the last committed hash is
100 but the fetched block's parent is 991; walking headers finds the known
ancestor at height 98, and the runtime rewinds to it. -/
theorem fork_rewind_spec_witness :
    (some (100 : Nat) = some 100) ∧ ((100 : Nat) ≠ 991) ∧
    find_fork_root ⟨[⟨98, 980, 0, "btc"⟩], [⟨99, 7⟩], [], [], [], fun _ => none⟩ "btc"
      (fun h => if h = 991 then some 980 else none) 991 5 = some ⟨98, 980, 0, "btc"⟩ ∧
    ∃ st', index_block
        ⟨⟨[⟨98, 980, 0, "btc"⟩], [⟨99, 7⟩], [], [], [], fun _ => none⟩,
          some 100, "btc", false, false⟩
        100 (fun h => if h = 991 then some 980 else none) 5 1000 991 3 0 true
      = some (st', 98, 980, 0) := by
  have hroot : find_fork_root
      ⟨[⟨98, 980, 0, "btc"⟩], [⟨99, 7⟩], [], [], [], fun _ => none⟩ "btc"
      (fun h => if h = 991 then some 980 else none) 991 5 = some ⟨98, 980, 0, "btc"⟩ := by
    decide
  refine ⟨rfl, by decide, hroot, ?_⟩
  obtain ⟨st', h1, -⟩ := fork_rewind_spec
    ⟨⟨[⟨98, 980, 0, "btc"⟩], [⟨99, 7⟩], [], [], [], fun _ => none⟩,
      some 100, "btc", false, false⟩
    100 (fun h => if h = 991 then some 980 else none) 5 1000 991 3 0 true
    100 ⟨98, 980, 0, "btc"⟩ rfl (by decide) hroot
  exact ⟨st', h1⟩

/-- A tapscript scan that reports `found` really saw a push of the
commitment bytes on an input whose previous output is P2TR and whose block
is deep enough. -/
theorem scanInstrs_found (env : RpcEnv) (commitment : List Nat) (txBlock : Nat)
    (inp : InputT) :
    ∀ script t, scanInstrs env commitment txBlock inp script = ScanOutcome.found t →
      t = inp.prevTxid ∧ InstrT.push commitment ∈ script ∧
      ∃ info commitHeight, env.getRawTx inp.prevTxid = some info ∧
        info.vouts.getD inp.prevVout false = true ∧
        env.headerHeight info.blockhash = some commitHeight ∧
        COMMIT_CONFIRMATIONS ≤ txBlock - commitHeight + 1 := by
  intro script
  induction script with
  | nil =>
    intro t h
    cases h
  | cons instr rest ihr =>
    intro t h
    cases instr with
    | errInstr =>
      simp only [scanInstrs] at h
      cases h
    | nonPush =>
      simp only [scanInstrs] at h
      obtain ⟨h1, h2, h3⟩ := ihr t h
      exact ⟨h1, List.mem_cons_of_mem _ h2, h3⟩
    | push bytes =>
      simp only [scanInstrs] at h
      by_cases hb : bytes ≠ commitment
      · rw [if_pos hb] at h
        obtain ⟨h1, h2, h3⟩ := ihr t h
        exact ⟨h1, List.mem_cons_of_mem _ h2, h3⟩
      · rw [if_neg hb] at h
        push_neg at hb
        subst hb
        rcases hraw : env.getRawTx inp.prevTxid with _ | info
        · rw [hraw] at h
          simp only [] at h
          cases h
        · rw [hraw] at h
          simp only [] at h
          by_cases htap : info.vouts.getD inp.prevVout false = true
          · rw [if_neg (by rw [htap]; simp)] at h
            rcases hhh : env.headerHeight info.blockhash with _ | commitHeight
            · rw [hhh] at h
              simp only [] at h
              cases h
            · rw [hhh] at h
              simp only [] at h
              by_cases hconf : COMMIT_CONFIRMATIONS ≤ txBlock - commitHeight + 1
              · rw [if_pos hconf] at h
                injection h with ht
                exact ⟨ht.symm, List.mem_cons_self _ _,
                  info, commitHeight, rfl, htap, hhh, hconf⟩
              · rw [if_neg hconf] at h
                obtain ⟨h1, h2, h3⟩ := ihr t h
                rw [← hraw]
                exact ⟨h1, List.mem_cons_of_mem _ h2, h3⟩
          · rw [if_pos (by rw [Bool.not_eq_true', Bool.eq_false_iff]; exact htap)] at h
            obtain ⟨h1, h2, h3⟩ := ihr t h
            rw [← hraw]
            exact ⟨h1, List.mem_cons_of_mem _ h2, h3⟩

/-- `validate_commitment` accepts only via an input that passes all three
checks: a tapscript push of the commitment bytes, a P2TR previous output,
and enough confirmations. -/
theorem validate_commitment_some (env : RpcEnv) (commitment : List Nat) (txBlock : Nat) :
    ∀ inputs t, validate_commitment env commitment txBlock inputs = some t →
      ∃ inp ∈ inputs, ∃ script, inp.tapscript = some script ∧
        t = inp.prevTxid ∧ InstrT.push commitment ∈ script ∧
        ∃ info commitHeight, env.getRawTx inp.prevTxid = some info ∧
          info.vouts.getD inp.prevVout false = true ∧
          env.headerHeight info.blockhash = some commitHeight ∧
          COMMIT_CONFIRMATIONS ≤ txBlock - commitHeight + 1 := by
  intro inputs
  induction inputs with
  | nil =>
    intro t h
    cases h
  | cons inp rest ihr =>
    intro t h
    rcases hts : inp.tapscript with _ | script
    · simp only [validate_commitment, hts] at h
      obtain ⟨inp', hmem, hrest⟩ := ihr t h
      exact ⟨inp', List.mem_cons_of_mem _ hmem, hrest⟩
    · simp only [validate_commitment, hts] at h
      rcases hscan : scanInstrs env commitment txBlock inp script with t' | _ | _
      · rw [hscan] at h
        simp only [] at h
        injection h with ht
        subst ht
        obtain ⟨h1, h2, h3⟩ := scanInstrs_found env commitment txBlock inp script t' hscan
        exact ⟨inp, List.mem_cons_self _ _, script, hts, h1, h2, h3⟩
      · rw [hscan] at h
        simp only [] at h
        cases h
      · rw [hscan] at h
        simp only [] at h
        obtain ⟨inp', hmem, hrest⟩ := ihr t h
        exact ⟨inp', List.mem_cons_of_mem _ hmem, hrest⟩

/-- C7: an explicitly named etching is accepted only when some input's
tapscript pushes the commitment bytes of the rune name, the referenced
previous output is P2TR, and that output's block is at least
`COMMIT_CONFIRMATIONS = 6` confirmations behind the etching block
(`tx_block − commit_height + 1 ≥ 6`); the etching is additionally gated by
the minimum-name and name-uniqueness checks, and whenever the commitment
validation fails the gate yields no rune entry and increments the
invalid-etch counter. -/
theorem etching_commitment_gate (env : RpcEnv) (commitment : List Nat) (txBlock : Nat)
    (inputs : List InputT) (minimumOk nameFresh : Bool) :
    (∀ t, validate_commitment env commitment txBlock inputs = some t →
      ∃ inp ∈ inputs, ∃ script, inp.tapscript = some script ∧
        t = inp.prevTxid ∧ InstrT.push commitment ∈ script ∧
        ∃ info commitHeight, env.getRawTx inp.prevTxid = some info ∧
          info.vouts.getD inp.prevVout false = true ∧
          env.headerHeight info.blockhash = some commitHeight ∧
          COMMIT_CONFIRMATIONS ≤ txBlock - commitHeight + 1) ∧
    (∀ t, (etchedNamedGate minimumOk nameFresh
        (validate_commitment env commitment txBlock inputs)).2 = some t →
      minimumOk = true ∧ nameFresh = true ∧
      validate_commitment env commitment txBlock inputs = some t) ∧
    (validate_commitment env commitment txBlock inputs = none →
      etchedNamedGate minimumOk nameFresh
        (validate_commitment env commitment txBlock inputs) = (1, none)) := by
  refine ⟨fun t ht => validate_commitment_some env commitment txBlock inputs t ht,
    fun t ht => ?_, fun hnone => ?_⟩
  · unfold etchedNamedGate at ht
    rcases minimumOk with _ | _
    · simp at ht
    · rcases nameFresh with _ | _
      · simp at ht
      · simp only [Bool.not_true, Bool.false_eq_true, if_false] at ht
        rcases hv : validate_commitment env commitment txBlock inputs with _ | t'
        · rw [hv] at ht
          cases ht
        · rw [hv] at ht
          injection ht with ht'
          subst ht'
          exact ⟨rfl, rfl, rfl⟩
  · unfold etchedNamedGate
    rw [hnone]
    rcases minimumOk with _ | _ <;> rcases nameFresh with _ | _ <;> rfl

/-- Witness for `etching_commitment_gate`: a commitment push of bytes
`[1, 2]` spending a P2TR output buried 7 blocks deep is accepted and
reveals the commitment transaction. -/
theorem etching_commitment_gate_witness :
    validate_commitment
        ⟨fun t => if t = 7 then some ⟨[true], 55⟩ else none,
          fun b => if b = 55 then some 94 else none⟩
        [1, 2] 100 [⟨some [InstrT.push [1, 2]], 7, 0⟩] = some 7 ∧
    (∃ inp ∈ [(⟨some [InstrT.push [1, 2]], 7, 0⟩ : InputT)], ∃ script,
      inp.tapscript = some script ∧
      (7 : Nat) = inp.prevTxid ∧ InstrT.push [1, 2] ∈ script ∧
      ∃ info commitHeight,
        (if inp.prevTxid = 7 then some (⟨[true], 55⟩ : RpcTxInfo) else none) = some info ∧
        info.vouts.getD inp.prevVout false = true ∧
        (if info.blockhash = 55 then some (94 : Nat) else none) = some commitHeight ∧
        COMMIT_CONFIRMATIONS ≤ 100 - commitHeight + 1) :=
  ⟨by decide,
    (etching_commitment_gate
      ⟨fun t => if t = 7 then some ⟨[true], 55⟩ else none,
        fun b => if b = 55 then some 94 else none⟩
      [1, 2] 100 [⟨some [InstrT.push [1, 2]], 7, 0⟩] true true).1 7 (by decide)⟩

/-- C9: `min_utxos_to_reach_target` does **not** reject a zero target — on
any non-empty candidate list it returns `Ok(vec![])` (the
`debug_assert_ne!` is compiled out of release builds and the regression test
asserting an error is `#[ignore]`d); only the service entry points
`collect_btc_utxo` / `collect_rune_utxo` reject a zero target. -/
theorem target_zero_not_rejected_by_algo :
    min_utxos_to_reach_target [⟨0, 100⟩, ⟨1, 50⟩] 0 = Sum.inr [] ∧
    (∀ balance singleGe candidates maxUtxos,
      collect_btc_utxo balance singleGe candidates 0 maxUtxos
        = Except.error (CollectorError.badInput "Target amount is zero")) ∧
    (∀ balance singleGe candidates maxUtxos,
      collect_rune_utxo balance singleGe candidates 0 maxUtxos
        = Except.error (CollectorError.badInput "Target amount is zero")) := by
  refine ⟨?_, fun _ _ _ _ => rfl, fun _ _ _ _ => rfl⟩
  unfold min_utxos_to_reach_target
  rw [if_neg (by decide)]
  exact collectLoop_done _ _ _ _ _ (by decide)

/-- C5 (counterexample): a caller whose `request_id` is the literal sentinel
string `p.j.fry` locks a UTXO and then sees its *own* reservation as locked,
against the claim that a caller repeating with the same `request_id` always
gets `false`. -/
theorem check_is_locked_sentinel_id :
    check_is_locked (lock_utxo (fun _ => none) "t" 0 "p.j.fry" 0) "t" 0 (some "p.j.fry")
      = true := by
  decide

/-- C5 (amended): `check_is_locked` is true iff the key exists and holds the
sentinel or an id differing from the caller's; a missing key is not locked;
a caller repeating with the same request id sees its own reservation as not
locked *provided* its id is neither empty nor the literal sentinel; an empty
request id is stored as the synthetic `p.j.fry-<random>` value, which is
never the empty string, so empty caller ids are always treated as
different (locked). -/
theorem lock_semantics (store : KvStore) (txHash : String) (vout : Nat)
    (rid : Option String) (lockerId : String) (r : Nat) :
    (check_is_locked store txHash vout rid = true ↔
      ∃ val, store (lockKey txHash vout) = some val ∧ (val = NO_ID ∨ some val ≠ rid)) ∧
    (store (lockKey txHash vout) = none → check_is_locked store txHash vout rid = false) ∧
    (lockerId ≠ "" → lockerId ≠ NO_ID →
      check_is_locked (lock_utxo store txHash vout lockerId r) txHash vout (some lockerId)
        = false) ∧
    (lockerId = "" →
      lock_utxo store txHash vout lockerId r (lockKey txHash vout)
          = some (NO_ID ++ "-" ++ toString r) ∧
      check_is_locked (lock_utxo store txHash vout lockerId r) txHash vout (some "")
        = true) := by
  have hdata : ∀ a b : String, (a ++ b).data = a.data ++ b.data := fun _ _ => rfl
  have hsynth_ne_noid : NO_ID ++ "-" ++ toString r ≠ NO_ID := by
    intro h
    have hd := congrArg String.data h
    rw [hdata, hdata] at hd
    have hlen := congrArg List.length hd
    simp at hlen
  have hsynth_ne_nil : NO_ID ++ "-" ++ toString r ≠ "" := by
    intro h
    have hd := congrArg String.data h
    rw [hdata, hdata] at hd
    have hlen := congrArg List.length hd
    simp at hlen
  have hck : ∀ (st : KvStore) (val : String), st (lockKey txHash vout) = some val →
      ∀ q, check_is_locked st txHash vout q
        = if val = NO_ID then true else !(some val == q) := by
    intro st val hv q
    unfold check_is_locked
    rw [hv]
  refine ⟨?_, fun hnone => ?_, fun hne hnid => ?_, fun hnil => ?_⟩
  · rcases hv : store (lockKey txHash vout) with _ | val
    · simp [check_is_locked, hv]
    · rw [hck store val hv rid]
      by_cases hid : val = NO_ID
      · rw [if_pos hid]
        simp only [true_iff]
        exact ⟨val, rfl, Or.inl hid⟩
      · rw [if_neg hid]
        constructor
        · intro hb
          refine ⟨val, rfl, Or.inr ?_⟩
          intro hr
          rw [← hr] at hb
          simp at hb
        · rintro ⟨val', hval', hor⟩
          cases hval'
          rcases hor with h1 | h1
          · exact absurd h1 hid
          · simp only [Bool.not_eq_true', beq_eq_false_iff_ne, ne_eq]
            exact h1
  · unfold check_is_locked
    rw [hnone]
  · have hemp : lockerId.isEmpty = false := by
      rw [Bool.eq_false_iff]
      intro h
      exact hne ((String.isEmpty_iff lockerId).mp h)
    have hstore : lock_utxo store txHash vout lockerId r (lockKey txHash vout)
        = some lockerId := by
      simp [lock_utxo, hemp]
    rw [hck _ lockerId hstore]
    rw [if_neg hnid]
    simp
  · subst hnil
    have hstore : lock_utxo store txHash vout "" r (lockKey txHash vout)
        = some (NO_ID ++ "-" ++ toString r) := by
      have hemp : ("" : String).isEmpty = true := rfl
      simp [lock_utxo, hemp]
    refine ⟨hstore, ?_⟩
    rw [hck _ _ hstore]
    rw [if_neg hsynth_ne_noid]
    simp only [Bool.not_eq_true', beq_eq_false_iff_ne, ne_eq, Option.some.injEq]
    exact hsynth_ne_nil

/-- Witness for `lock_semantics`: a lock by caller `b` is not locked for a
repeat of caller `b`; a lock by the empty caller is locked even for another
empty caller. -/
theorem lock_semantics_witness :
    check_is_locked (lock_utxo (fun _ => none) "t" 0 "b" 0) "t" 0 (some "b") = false ∧
    check_is_locked (lock_utxo (fun _ => none) "t" 0 "" 5) "t" 0 (some "") = true :=
  ⟨(lock_semantics (fun _ => none) "t" 0 (some "b") "b" 0).2.2.1 (by decide) (by decide),
    ((lock_semantics (fun _ => none) "t" 0 (some "") "" 5).2.2.2 rfl).2⟩

/-- `modifyNth` preserves length. -/
theorem modifyNth_length : ∀ (l : List BalMap) (i : Nat) (f : BalMap → BalMap),
    (modifyNth l i f).length = l.length := by
  intro l
  induction l with
  | nil =>
    intro i f
    rfl
  | cons x xs ih =>
    intro i f
    cases i with
    | zero => rfl
    | succ n => simp [modifyNth, ih]

/-- Modifying one entry by a pointwise increment `c` at rune `R` increments
the vector's total at `R` by `c`. -/
theorem sum_map_modifyNth : ∀ (l : List BalMap) (i : Nat) (f : BalMap → BalMap)
    (R : RuneIdT) (c : Nat), i < l.length → (∀ m, f m R = m R + c) →
    ((modifyNth l i f).map (fun m => m R)).sum = (l.map (fun m => m R)).sum + c := by
  intro l
  induction l with
  | nil =>
    intro i f R c hi _
    simp at hi
  | cons x xs ih =>
    intro i f R c hi hf
    cases i with
    | zero =>
      simp only [modifyNth, List.map_cons, List.sum_cons, hf x]
      ring
    | succ n =>
      simp only [modifyNth, List.map_cons, List.sum_cons]
      rw [ih n f R c (by simpa using hi) hf]
      ring

/-- `allocate` preserves the length of the allocation vector. -/
theorem allocate_len (st : AllocState) (id : RuneIdT) (a out : Nat) :
    (allocate st id a out).alloc.length = st.alloc.length := by
  unfold allocate
  split
  · simp [modifyNth_length]
  · rfl

/-- `allocate` deducts exactly its amount from the unallocated balance of
its rune. -/
theorem allocate_unalloc_self (st : AllocState) (id : RuneIdT) (a out : Nat) :
    (allocate st id a out).unalloc id = st.unalloc id - a := by
  unfold allocate
  split
  · simp
  · rename_i ha
    omega

/-- `allocate` leaves the balance of other runes untouched. -/
theorem allocate_unalloc_other (st : AllocState) (id : RuneIdT) (a out : Nat)
    (R : RuneIdT) (hR : R ≠ id) :
    (allocate st id a out).unalloc R = st.unalloc R := by
  unfold allocate
  split
  · simp [hR]
  · rfl

/-- `allocate` conserves `unalloc R + sumAlloc R` for every rune `R`, as
long as the amount is covered by the unallocated balance and the output is
in range. -/
theorem allocate_total (st : AllocState) (id : RuneIdT) (a out : Nat)
    (h1 : a ≤ st.unalloc id) (h2 : out < st.alloc.length) (R : RuneIdT) :
    (allocate st id a out).unalloc R + sumAlloc (allocate st id a out) R
      = st.unalloc R + sumAlloc st R := by
  unfold allocate
  by_cases ha : 0 < a
  · rw [if_pos ha]
    unfold sumAlloc
    show (if R = id then st.unalloc R - a else st.unalloc R)
        + ((modifyNth st.alloc out (fun m => bump m id a)).map (fun m => m R)).sum
      = st.unalloc R + (st.alloc.map (fun m => m R)).sum
    have hf : ∀ m : BalMap, bump m id a R = m R + (if R = id then a else 0) := by
      intro m
      unfold bump
      by_cases hR : R = id
      · simp [hR]
      · simp [hR]
    rw [sum_map_modifyNth st.alloc out (fun m => bump m id a) R (if R = id then a else 0) h2 hf]
    by_cases hR : R = id
    · rw [if_pos hR, if_pos hR]
      have hsub : a ≤ st.unalloc R := by
        rw [hR]
        exact h1
      generalize (List.map (fun m => m R) st.alloc).sum = S
      omega
    · rw [if_neg hR, if_neg hR]
      generalize (List.map (fun m => m R) st.alloc).sum = S
      omega
  · rw [if_neg ha]

/-- Folding `allocate` over a list of `(amount, destination)` pairs whose
amounts sum to at most the available balance conserves totals and the
vector length. -/
theorem foldl_allocate_pairs (id : RuneIdT) :
    ∀ (pairs : List (Nat × Nat)) (st : AllocState),
      (∀ p ∈ pairs, p.2 < st.alloc.length) →
      (pairs.map Prod.fst).sum ≤ st.unalloc id →
      (pairs.foldl (fun s p => allocate s id p.1 p.2) st).alloc.length = st.alloc.length ∧
      ∀ R, (pairs.foldl (fun s p => allocate s id p.1 p.2) st).unalloc R
          + sumAlloc (pairs.foldl (fun s p => allocate s id p.1 p.2) st) R
        = st.unalloc R + sumAlloc st R := by
  intro pairs
  induction pairs with
  | nil =>
    intro st _ _
    exact ⟨rfl, fun R => rfl⟩
  | cons p ps ih =>
    intro st hdest hsum
    simp only [List.foldl_cons]
    have h1 : p.1 ≤ st.unalloc id := by
      simp only [List.map_cons, List.sum_cons] at hsum
      omega
    have h2 : p.2 < st.alloc.length := hdest p (List.mem_cons_self _ _)
    have hlen1 := allocate_len st id p.1 p.2
    have hus := allocate_unalloc_self st id p.1 p.2
    have htot := allocate_total st id p.1 p.2 h1 h2
    have hsum2 : (ps.map Prod.fst).sum ≤ (allocate st id p.1 p.2).unalloc id := by
      rw [hus]
      simp only [List.map_cons, List.sum_cons] at hsum
      omega
    have hdest2 : ∀ q ∈ ps, q.2 < (allocate st id p.1 p.2).alloc.length := by
      rw [hlen1]
      exact fun q hq => hdest q (List.mem_cons_of_mem _ hq)
    obtain ⟨hl, ht⟩ := ih (allocate st id p.1 p.2) hdest2 hsum2
    exact ⟨by rw [hl, hlen1], fun R => by rw [ht R, htot R]⟩

/-- Folding `allocate` with the state-dependent amount
`min amt (unalloc id)` (the non-zero "all outputs" edict branch) conserves
totals and the vector length. -/
theorem foldl_allocate_min (id : RuneIdT) (amt0 : Nat) :
    ∀ (dests : List Nat) (st : AllocState),
      (∀ d ∈ dests, d < st.alloc.length) →
      (dests.foldl (fun s d => allocate s id (min amt0 (s.unalloc id)) d) st).alloc.length
          = st.alloc.length ∧
      ∀ R, (dests.foldl (fun s d => allocate s id (min amt0 (s.unalloc id)) d) st).unalloc R
          + sumAlloc (dests.foldl (fun s d => allocate s id (min amt0 (s.unalloc id)) d) st) R
        = st.unalloc R + sumAlloc st R := by
  intro dests
  induction dests with
  | nil =>
    intro st _
    exact ⟨rfl, fun R => rfl⟩
  | cons d ds ih =>
    intro st hdest
    simp only [List.foldl_cons]
    have h1 : min amt0 (st.unalloc id) ≤ st.unalloc id := Nat.min_le_right _ _
    have h2 : d < st.alloc.length := hdest d (List.mem_cons_self _ _)
    have hlen1 := allocate_len st id (min amt0 (st.unalloc id)) d
    have htot := allocate_total st id (min amt0 (st.unalloc id)) d h1 h2
    have hdest2 : ∀ q ∈ ds, q < (allocate st id (min amt0 (st.unalloc id)) d).alloc.length := by
      rw [hlen1]
      exact fun q hq => hdest q (List.mem_cons_of_mem _ hq)
    obtain ⟨hl, ht⟩ := ih (allocate st id (min amt0 (st.unalloc id)) d) hdest2
    exact ⟨by rw [hl, hlen1], fun R => by rw [ht R, htot R]⟩

/-- Folding `allocate` with a per-pair amount function whose total is
covered by the available balance conserves totals and the vector length. -/
theorem foldl_allocate_amount (id : RuneIdT) (amountOf : Nat × Nat → Nat) :
    ∀ (l : List (Nat × Nat)) (st : AllocState),
      (∀ p ∈ l, p.2 < st.alloc.length) →
      (l.map amountOf).sum ≤ st.unalloc id →
      (l.foldl (fun s p => allocate s id (amountOf p) p.2) st).alloc.length
          = st.alloc.length ∧
      ∀ R, (l.foldl (fun s p => allocate s id (amountOf p) p.2) st).unalloc R
          + sumAlloc (l.foldl (fun s p => allocate s id (amountOf p) p.2) st) R
        = st.unalloc R + sumAlloc st R := by
  intro l
  induction l with
  | nil =>
    intro st _ _
    exact ⟨rfl, fun R => rfl⟩
  | cons p ps ih =>
    intro st hdest hsum
    simp only [List.foldl_cons]
    have h1 : amountOf p ≤ st.unalloc id := by
      simp only [List.map_cons, List.sum_cons] at hsum
      omega
    have h2 : p.2 < st.alloc.length := hdest p (List.mem_cons_self _ _)
    have hlen1 := allocate_len st id (amountOf p) p.2
    have hus := allocate_unalloc_self st id (amountOf p) p.2
    have htot := allocate_total st id (amountOf p) p.2 h1 h2
    have hsum2 : (ps.map amountOf).sum ≤ (allocate st id (amountOf p) p.2).unalloc id := by
      rw [hus]
      simp only [List.map_cons, List.sum_cons] at hsum
      omega
    have hdest2 : ∀ q ∈ ps, q.2 < (allocate st id (amountOf p) p.2).alloc.length := by
      rw [hlen1]
      exact fun q hq => hdest q (List.mem_cons_of_mem _ hq)
    obtain ⟨hl, ht⟩ := ih (allocate st id (amountOf p) p.2) hdest2 hsum2
    exact ⟨by rw [hl, hlen1], fun R => by rw [ht R, htot R]⟩

/-- The even-division amounts of the zero-amount edict branch sum to
`q * n + min r n`. -/
theorem sum_ite_range (q r : Nat) :
    ∀ n, ((List.range n).map (fun i => if i < r then q + 1 else q)).sum
      = q * n + min r n := by
  intro n
  induction n with
  | zero => simp
  | succ m ihm =>
    rw [List.range_succ, List.map_append, List.sum_append, ihm]
    simp only [List.map_cons, List.map_nil, List.sum_cons, List.sum_nil]
    by_cases hm : m < r
    · rw [if_pos hm, Nat.mul_succ]
      omega
    · rw [if_neg hm, Nat.mul_succ]
      omega

/-- Every destination of an edict is a valid output index. -/
theorem destinationsOf_lt (outputs : List Bool) :
    ∀ d ∈ destinationsOf outputs, d < outputs.length := by
  intro d hd
  unfold destinationsOf at hd
  rw [List.mem_map] at hd
  obtain ⟨p, hp, hpd⟩ := hd
  rw [List.mem_filter] at hp
  have := List.fst_lt_of_mem_enum hp.1
  omega

/-- One edict conserves `unalloc R + sumAlloc R` for every rune and
preserves the allocation-vector length, given the decoder's guarantee
`output ≤ nOut` and a vector of size `nOut` over the transaction's
outputs. -/
theorem processEdict_total (nOut : Nat) (outputs : List Bool) (etched : Option RuneIdT)
    (st : AllocState) (e : EdictT)
    (hnOut : outputs.length = nOut) (hlen : st.alloc.length = nOut)
    (hout : e.output ≤ nOut) :
    (processEdict nOut outputs etched st e).alloc.length = st.alloc.length ∧
    ∀ R, (processEdict nOut outputs etched st e).unalloc R
        + sumAlloc (processEdict nOut outputs etched st e) R
      = st.unalloc R + sumAlloc st R := by
  unfold processEdict
  rcases hid : (if e.id = ((0, 0) : RuneIdT) then etched else some e.id) with _ | id
  · exact ⟨rfl, fun R => rfl⟩
  · simp only []
    by_cases hsent : e.output = nOut
    · rw [if_pos hsent]
      by_cases hde : (destinationsOf outputs).isEmpty
      · rw [if_pos hde]
        exact ⟨rfl, fun R => rfl⟩
      · rw [if_neg hde]
        have hdlen : 0 < (destinationsOf outputs).length := by
          rw [List.isEmpty_iff] at hde
          exact List.length_pos.mpr hde
        have hdests : ∀ p ∈ (destinationsOf outputs).enum, p.2 < st.alloc.length := by
          intro p hp
          have := destinationsOf_lt outputs p.2 (List.snd_mem_of_mem_enum hp)
          omega
        by_cases hz : e.amount = 0
        · rw [if_pos hz]
          apply foldl_allocate_amount id
            (fun p => if p.1 < st.unalloc id % (destinationsOf outputs).length then
              st.unalloc id / (destinationsOf outputs).length + 1
              else st.unalloc id / (destinationsOf outputs).length)
            (destinationsOf outputs).enum st hdests
          have hmapeq : (destinationsOf outputs).enum.map
              (fun p => if p.1 < st.unalloc id % (destinationsOf outputs).length then
                st.unalloc id / (destinationsOf outputs).length + 1
                else st.unalloc id / (destinationsOf outputs).length)
            = (List.range (destinationsOf outputs).length).map
              (fun i => if i < st.unalloc id % (destinationsOf outputs).length then
                st.unalloc id / (destinationsOf outputs).length + 1
                else st.unalloc id / (destinationsOf outputs).length) := by
            rw [← List.enum_map_fst (destinationsOf outputs), List.map_map]
            rfl
          rw [hmapeq, sum_ite_range]
          have hmod : st.unalloc id % (destinationsOf outputs).length
              < (destinationsOf outputs).length := Nat.mod_lt _ hdlen
          have hdm := Nat.div_add_mod (st.unalloc id) (destinationsOf outputs).length
          rw [Nat.min_eq_left (by omega)]
          rw [Nat.mul_comm]
          omega
        · rw [if_neg hz]
          exact foldl_allocate_min id e.amount (destinationsOf outputs) st
            (fun d hd => by
              have := destinationsOf_lt outputs d hd
              omega)
    · rw [if_neg hsent]
      have hlt : e.output < st.alloc.length := by omega
      constructor
      · exact allocate_len st id _ e.output
      · intro R
        apply allocate_total st id _ e.output ?_ hlt R
        by_cases hz : e.amount = 0
        · rw [if_pos hz]
        · rw [if_neg hz]
          exact Nat.min_le_right _ _

/-- The whole edict loop conserves totals and the vector length. -/
theorem foldl_processEdict (nOut : Nat) (outputs : List Bool) (etched : Option RuneIdT)
    (hnOut : outputs.length = nOut) :
    ∀ (edicts : List EdictT) (st : AllocState), st.alloc.length = nOut →
      (∀ e ∈ edicts, e.output ≤ nOut) →
      (edicts.foldl (processEdict nOut outputs etched) st).alloc.length = st.alloc.length ∧
      ∀ R, (edicts.foldl (processEdict nOut outputs etched) st).unalloc R
          + sumAlloc (edicts.foldl (processEdict nOut outputs etched) st) R
        = st.unalloc R + sumAlloc st R := by
  intro edicts
  induction edicts with
  | nil =>
    intro st _ _
    exact ⟨rfl, fun R => rfl⟩
  | cons e es ih =>
    intro st hst hes
    simp only [List.foldl_cons]
    obtain ⟨hl1, ht1⟩ := processEdict_total nOut outputs etched st e hnOut hst
      (hes e (List.mem_cons_self _ _))
    obtain ⟨hl2, ht2⟩ := ih (processEdict nOut outputs etched st e) (by rw [hl1, hst])
      (fun e' he' => hes e' (List.mem_cons_of_mem _ he'))
    exact ⟨by rw [hl2, hl1], fun R => by rw [ht2 R, ht1 R]⟩

/-- The initial allocation vector carries no runes. -/
theorem replicate_zero_sum (n : Nat) (R : RuneIdT) :
    ((List.replicate n (fun _ => 0 : BalMap)).map (fun m => m R)).sum = 0 := by
  rw [List.map_replicate]
  simp

/-- After the edict loop the allocation vector still has one map per output
and `unalloc R + sumAlloc R` equals the post-mint post-premine unallocated
balance of `R`. -/
theorem afterEdicts_spec (tx : TxCtx) (hwf : TxWellFormed tx) :
    (afterEdicts tx).alloc.length = tx.outputs.length ∧
    ∀ R, (afterEdicts tx).unalloc R + sumAlloc (afterEdicts tx) R
      = unallocAfterPremine tx R := by
  unfold afterEdicts
  have hst0len : (List.replicate tx.outputs.length (fun _ => 0 : BalMap)).length
      = tx.outputs.length := List.length_replicate _ _
  rcases hart : tx.artifact with _ | art
  · refine ⟨hst0len, fun R => ?_⟩
    unfold sumAlloc
    simp only [replicate_zero_sum]
    omega
  · cases art with
    | runestone r =>
      have hwf2 : ∀ e ∈ r.edicts, e.output ≤ tx.outputs.length := by
        unfold TxWellFormed at hwf
        rw [hart] at hwf
        exact hwf.1
      obtain ⟨hl, ht⟩ := foldl_processEdict tx.outputs.length tx.outputs (etchedId tx) rfl
        r.edicts
        { unalloc := unallocAfterPremine tx
          alloc := List.replicate tx.outputs.length (fun _ => 0) }
        hst0len hwf2
      refine ⟨by rw [hl, hst0len], fun R => ?_⟩
      rw [ht R]
      unfold sumAlloc
      simp only [replicate_zero_sum]
      omega
    | cenotaph c =>
      refine ⟨hst0len, fun R => ?_⟩
      unfold sumAlloc
      simp only [replicate_zero_sum]
      omega

/-- The first non-`OP_RETURN` output index is a valid output index. -/
theorem firstNonOpReturn_lt (outputs : List Bool) (v : Nat)
    (h : firstNonOpReturn outputs = some v) : v < outputs.length := by
  unfold firstNonOpReturn at h
  rcases hf : outputs.enum.find? (fun p => !p.2) with _ | p
  · rw [hf] at h
    cases h
  · rw [hf] at h
    injection h with hv
    subst hv
    exact List.fst_lt_of_mem_enum (List.mem_of_find?_eq_some hf)

/-- Splitting a sum over an enumerated vector by a boolean predicate. -/
theorem sum_filter_partition (f : Nat × BalMap → Nat) (q : Nat × BalMap → Bool) :
    ∀ l : List (Nat × BalMap),
      ((l.filter q).map f).sum + ((l.filter (fun p => !q p)).map f).sum = (l.map f).sum := by
  intro l
  induction l with
  | nil => rfl
  | cons x xs ih =>
    simp only [List.filter_cons]
    by_cases hq : q x = true
    · rw [if_pos hq, if_neg (by simp [hq])]
      simp only [List.map_cons, List.sum_cons]
      rw [Nat.add_assoc, ih]
    · rw [if_neg hq, if_pos (by simp [Bool.not_eq_true] at hq ⊢; exact hq)]
      simp only [List.map_cons, List.sum_cons]
      rw [Nat.add_left_comm, ih]

/-- The per-vout total of an allocation vector, read through `enum`. -/
theorem sum_enum_snd (l : List BalMap) (R : RuneIdT) :
    (l.enum.map (fun p => p.2 R)).sum = (l.map (fun m => m R)).sum := by
  conv_rhs => rw [← List.enum_map_snd l, List.map_map]
  rfl

/-- Replacing the unallocated map does not change the per-vout totals. -/
theorem sumAlloc_set_unalloc (u : BalMap) (st : AllocState) (R : RuneIdT) :
    sumAlloc { unalloc := u, alloc := st.alloc } R = sumAlloc st R := rfl

/-- Moving the whole unallocated balance onto output `vout` turns the
per-vout total into the old total plus the unallocated balance. -/
theorem sumAlloc_shift (st : AllocState) (vout : Nat) (hv : vout < st.alloc.length)
    (R : RuneIdT) :
    sumAlloc { unalloc := fun _ => 0,
               alloc := modifyNth st.alloc vout (fun m => fun k => m k + st.unalloc k) } R
      = sumAlloc st R + st.unalloc R := by
  unfold sumAlloc
  exact sum_map_modifyNth st.alloc vout _ R (st.unalloc R) hv (fun m => rfl)

/-- `Option.or` keeps a `some` left argument. -/
theorem option_some_or (a : Nat) (o : Option Nat) : Option.or (some a) o = some a := rfl

/-- Step 6 (disposition) conserves the per-rune total: the final allocation
vector plus the step-6 burns carry exactly the post-premine balance. -/
theorem disposition_spec (tx : TxCtx) (hwf : TxWellFormed tx) :
    (disposition tx).1.alloc.length = tx.outputs.length ∧
    ∀ R, sumAlloc (disposition tx).1 R + (disposition tx).2 R
      = unallocAfterPremine tx R := by
  obtain ⟨hlen, htot⟩ := afterEdicts_spec tx hwf
  unfold disposition
  rcases hart : tx.artifact with _ | art
  · simp only []
    rcases hfo : firstNonOpReturn tx.outputs with _ | v
    · simp only [Option.none_or]
      refine ⟨hlen, fun R => ?_⟩
      rw [sumAlloc_set_unalloc, Nat.add_comm]
      exact htot R
    · simp only [Option.none_or]
      have hv : v < (afterEdicts tx).alloc.length := by
        rw [hlen]
        exact firstNonOpReturn_lt tx.outputs v hfo
      refine ⟨by rw [modifyNth_length]; exact hlen, fun R => ?_⟩
      rw [sumAlloc_shift (afterEdicts tx) v hv R, Nat.add_zero, Nat.add_comm]
      exact htot R
  · cases art with
    | cenotaph c =>
      refine ⟨hlen, fun R => ?_⟩
      simp only []
      rw [sumAlloc_set_unalloc, Nat.add_comm]
      exact htot R
    | runestone r =>
      simp only []
      rcases hp : r.pointer with _ | p
      · rcases hfo : firstNonOpReturn tx.outputs with _ | v
        · simp only [Option.none_or]
          refine ⟨hlen, fun R => ?_⟩
          rw [sumAlloc_set_unalloc, Nat.add_comm]
          exact htot R
        · simp only [Option.none_or]
          have hv : v < (afterEdicts tx).alloc.length := by
            rw [hlen]
            exact firstNonOpReturn_lt tx.outputs v hfo
          refine ⟨by rw [modifyNth_length]; exact hlen, fun R => ?_⟩
          rw [sumAlloc_shift (afterEdicts tx) v hv R, Nat.add_zero, Nat.add_comm]
          exact htot R
      · simp only [option_some_or]
        have hv : p < (afterEdicts tx).alloc.length := by
          rw [hlen]
          unfold TxWellFormed at hwf
          rw [hart] at hwf
          have := hwf.2
          rw [hp] at this
          exact this
        refine ⟨by rw [modifyNth_length]; exact hlen, fun R => ?_⟩
        rw [sumAlloc_shift (afterEdicts tx) p hv R, Nat.add_zero, Nat.add_comm]
        exact htot R

/-- The mint step adds exactly `mintAdd` to the unallocated balance. -/
theorem unallocAfterMint_eq (tx : TxCtx) (R : RuneIdT) :
    unallocAfterMint tx R = tx.unalloc0 R + mintAdd tx R := by
  unfold unallocAfterMint mintAdd
  rcases hart : tx.artifact with _ | art
  · simp [hart]
  · rcases hm : art.mint with _ | mid
    · simp [hart, hm]
    · rcases ho : tx.mintOf mid with _ | amt
      · simp [hart, hm, ho]
      · simp only [hart, hm, ho]
        unfold bump
        by_cases hR : R = mid
        · simp [hR]
        · simp [hR]

/-- The premine step adds exactly `premineAdd` to the unallocated balance. -/
theorem unallocAfterPremine_eq (tx : TxCtx) (R : RuneIdT) :
    unallocAfterPremine tx R = unallocAfterMint tx R + premineAdd tx R := by
  unfold unallocAfterPremine premineAdd
  rcases hart : tx.artifact with _ | art
  · simp [hart]
  · cases art with
    | cenotaph c => simp [hart]
    | runestone r =>
      rcases he : etchedId tx with _ | eid
      · simp [hart, he]
      · simp only [hart, he]
        unfold bump
        by_cases hR : R = eid
        · simp [hR]
        · simp [hR]

/-- C1 (conservation per transaction): for every rune `R`, the rune amounts
carried by the transaction's inputs, plus a successful mint's amount, plus
the premine when `R` is etched here, equal the amounts staged as
`RuneOutput` rows plus the amount added to `burned` by this transaction. -/
theorem runes_conservation (tx : TxCtx) (hwf : TxWellFormed tx) (R : RuneIdT) :
    tx.unalloc0 R + mintAdd tx R + premineAdd tx R
      = stagedRowsSum tx R + burnedFinal tx R := by
  have hmint := unallocAfterMint_eq tx R
  have hpre := unallocAfterPremine_eq tx R
  obtain ⟨hlen, htot⟩ := disposition_spec tx hwf
  have hS : sumAlloc (disposition tx).1 R
      = ((disposition tx).1.alloc.enum.map (fun p => p.2 R)).sum := by
    unfold sumAlloc
    exact (sum_enum_snd _ R).symm
  have hpart :
      ((((disposition tx).1.alloc.enum.filter (fun p => tx.outputs.getD p.1 true)).map
          (fun p => p.2 R)).sum)
        + ((((disposition tx).1.alloc.enum.filter
            (fun p => !(tx.outputs.getD p.1 true))).map (fun p => p.2 R)).sum)
        = (((disposition tx).1.alloc.enum.map (fun p => p.2 R)).sum) :=
    sum_filter_partition (fun p => p.2 R) (fun p => tx.outputs.getD p.1 true)
      (disposition tx).1.alloc.enum
  unfold stagedRowsSum burnedFinal
  rw [← hmint, ← hpre, ← htot R, hS, ← hpart]
  ring

/-- Witness for `runes_conservation`: a transaction spending 101 of rune
`(500, 1)` with the edict `(id, amount 0, output 4)` over three ordinary
outputs plus one `OP_RETURN` — the allocation is `34 + 34 + 33`, nothing is
burned (spec scenario "all outputs, amount = 0"). -/
theorem runes_conservation_witness :
    let tx : TxCtx :=
      { outputs := [false, false, false, true]
        artifact := some (ArtifactT.runestone ⟨[⟨(500, 1), 0, 4⟩], none, none, none⟩)
        newRuneId := (0, 0)
        unalloc0 := fun k => if k = ((500, 1) : RuneIdT) then 101 else 0
        mintOf := fun _ => none
        etchOk := false }
    TxWellFormed tx ∧
    (tx.unalloc0 ((500, 1) : RuneIdT) + mintAdd tx (500, 1) + premineAdd tx (500, 1)
      = stagedRowsSum tx (500, 1) + burnedFinal tx (500, 1)) ∧
    (disposition tx).1.alloc.map (fun m => m ((500, 1) : RuneIdT)) = [34, 34, 33, 0] ∧
    burnedFinal tx (500, 1) = 0 ∧ stagedRowsSum tx (500, 1) = 101 := by
  refine ⟨⟨?_, ?_⟩, ?_, ?_, ?_, ?_⟩
  · intro e he
    simp only [List.mem_singleton] at he
    subst he
    decide
  · trivial
  · refine runes_conservation _ ?hwf (500, 1)
    refine ⟨fun e he => ?_, trivial⟩
    simp only [List.mem_singleton] at he
    subst he
    decide
  · decide
  · decide
  · decide

end Orbtc
